import Mathlib

/-!
# A verification development for the datman pipeline bookkeeping core

This file embeds, shallowly, the parts of the `datman` repository that its
specification makes claims about:

* `datman/utils.py` — the file-backed checklist/blacklist metadata store
  (`_parse_checklist`, `update_checklist`, `_parse_blacklist`,
  `update_blacklist`, `write_metadata`, `get_subject_metadata`);
* `datman/dashboard.py` — the dashboard reconciliation layer
  (`get_add_session`, `get_add_scan`, `get_add_session_scan_link`);
* `bin/dm-proc-enigma.py` — the submission driver (`main`,
  `write_run_scripts`, `subject_previously_completed`).

Python strings are modelled through `List Char` primitives (`pyTokens` for
`str.split()`, `splitOnP` for `re.split`, `listReplace` for `str.replace`,
`pyStrip` for `str.strip`), files as lists of lines, dictionaries as
association lists in insertion order, and raised exceptions through
`Except`.  The module `datman.scanid` and the helpers
`datman.proc.make_*_qbatch_command`, `datman.utils.check_checklist` /
`check_blacklist` are referenced by the embedded code but are not part of
this snapshot of the repository; they are modelled from the specification
and marked as such in their doc comments.
-/

namespace Datman

/-! ## Python string primitives over `List Char` -/

/-- Whether a character counts as whitespace for Python's `str.split()`. -/
def wsChar (c : Char) : Bool := c.isWhitespace

/-- The scanner behind `pyTokens`: `cur` is the (reversed) token being
collected. -/
def pyTokensAux (cur : List Char) : List Char → List (List Char)
  | [] => if cur = [] then [] else [cur.reverse]
  | c :: rest =>
    if wsChar c then
      if cur = [] then pyTokensAux [] rest
      else cur.reverse :: pyTokensAux [] rest
    else pyTokensAux (c :: cur) rest

/-- Python `str.split()` with no argument: maximal runs of non-whitespace
characters, empty tokens never produced. -/
def pyTokens (l : List Char) : List (List Char) := pyTokensAux [] l

/-- Splitting that keeps empty pieces, one split at every character
satisfying `p` — the behaviour of Python's `re.split` with a
single-character alternation pattern. -/
def splitOnP (p : Char → Bool) : List Char → List (List Char)
  | [] => [[]]
  | c :: rest =>
    if p c then [] :: splitOnP p rest
    else
      match splitOnP p rest with
      | [] => [[c]]
      | t :: ts => (c :: t) :: ts

/-- Python `str.strip()`: drop whitespace from both ends. -/
def pyStrip (l : List Char) : List Char :=
  ((l.dropWhile wsChar).reverse.dropWhile wsChar).reverse

/-- The engine behind `listReplace`, structurally recursive on a fuel that
starts at the length of the subject string (enough for every step, since
each step consumes at least one character). -/
def listReplaceF (pat rep : List Char) : Nat → List Char → List Char
  | 0, l => l
  | _ + 1, [] => []
  | fuel + 1, c :: rest =>
    if !pat.isEmpty && pat.isPrefixOf (c :: rest) then
      rep ++ listReplaceF pat rep fuel ((c :: rest).drop pat.length)
    else
      c :: listReplaceF pat rep fuel rest

/-- Python `str.replace(pat, rep)`: replace every non-overlapping occurrence
of `pat`, scanning left to right.  (The `pat = []` case, which Python treats
specially, never arises in the embedded code and is modelled as the
identity.) -/
def listReplace (pat rep l : List Char) : List Char :=
  listReplaceF pat rep l.length l

/-- Whether `pat` occurs as a contiguous substring of `l`
(Python's `pat in l`). -/
def hasInfix (pat : List Char) : List Char → Bool
  | [] => pat.isEmpty
  | c :: rest => pat.isPrefixOf (c :: rest) || hasInfix pat rest

/-! String wrappers for the primitives. -/

/-- Python `str.split()` on a `String`. -/
def strTokens (s : String) : List String := (pyTokens s.data).map String.mk

/-- `str.strip()` on a `String`. -/
def strStrip (s : String) : String := String.mk (pyStrip s.data)

/-- `str.replace` on a `String`. -/
def strReplace (s pat rep : String) : String :=
  String.mk (listReplace pat.data rep.data s.data)

/-- Python's substring test `needle in hay`. -/
def pyIn (needle hay : String) : Bool := hasInfix needle.data hay.data

/-- Python `sep.join(parts)`. -/
def pyJoin (sep : String) (parts : List String) : String :=
  String.mk (List.intercalate sep.data (parts.map String.data))

/-- The right half of `str.strip()`: drop trailing whitespace. -/
def pyStripRight (l : List Char) : List Char :=
  (l.reverse.dropWhile wsChar).reverse

/-- Split a `String` at every occurrence of the character `c`, keeping empty
pieces (Python `str.split(c)` / the pieces of `re.split`). -/
def strSplitOnChar (c : Char) (s : String) : List String :=
  (splitOnP (· = c) s.data).map String.mk

/-- Truthiness of an optional Python string: `None` and `''` are falsy. -/
def pyTruthy : Option String → Bool
  | none => false
  | some s => s ≠ ""

/-! ## Python dictionaries as association lists in insertion order -/

/-- First value stored under key `k` (`d[k]`, `d.get(k)`). -/
def dictGet? {α : Type} : List (String × α) → String → Option α
  | [], _ => none
  | (k', v') :: rest, k => if k' = k then some v' else dictGet? rest k

/-- `d[k] = v`: replace the value in place if the key exists, otherwise
append the new pair, as a Python `dict` does. -/
def dictInsert {α : Type} : List (String × α) → String → α → List (String × α)
  | [], k, v => [(k, v)]
  | (k', v') :: rest, k, v =>
    if k' = k then (k', v) :: rest else (k', v') :: dictInsert rest k v

/-- The keys of a dictionary, in insertion order. -/
def dictKeys {α : Type} (d : List (String × α)) : List String := d.map Prod.fst

/-- Python `k in d`. -/
def dictHas {α : Type} (d : List (String × α)) (k : String) : Bool :=
  (dictGet? d k).isSome

/-! ## The identifier model (`datman.scanid`)

The module `datman.scanid` is referenced throughout the embedded code but is
not among the source files of this snapshot; the definitions below are
modelled from the specification's identifier grammar. -/

namespace scanid

/-- A field of a canonical identifier: non-empty and alphanumeric. -/
def validField (s : String) : Bool := s ≠ "" && s.data.all Char.isAlphanum

/-- Modelled from the spec: the parsed decomposition of a canonical subject
or session identifier into study / site / subject / timepoint fields with an
optional session (repeat) number. -/
structure ScanIdentifier where
  study : String
  site : String
  subject : String
  timepoint : String
  session : Option String
  deriving Repr, DecidableEq

/-- Modelled from the spec: `datman.scanid.parse`.  Succeeds exactly on
underscore-separated identifiers `study_site_subject_timepoint` with an
optional trailing `_session` field, every field non-empty alphanumeric;
anything else raises `ParseException` (modelled as `none`). -/
def parse (s : String) : Option ScanIdentifier :=
  match strSplitOnChar '_' s with
  | [st, si, su, tp] =>
    if validField st && validField si && validField su && validField tp then
      some ⟨st, si, su, tp, none⟩
    else none
  | [st, si, su, tp, se] =>
    if validField st && validField si && validField su && validField tp &&
        validField se then
      some ⟨st, si, su, tp, some se⟩
    else none
  | _ => none

/-- Modelled from the spec: `ident.get_full_subjectid_with_timepoint()` —
the identifier string with the session (repeat) number dropped. -/
def fullSubjectIdWithTimepoint (i : ScanIdentifier) : String :=
  i.study ++ "_" ++ i.site ++ "_" ++ i.subject ++ "_" ++ i.timepoint

/-- Modelled from the spec: `str(ident)`, the canonical string form. -/
def identStr (i : ScanIdentifier) : String :=
  fullSubjectIdWithTimepoint i ++
    (match i.session with
     | some se => "_" ++ se
     | none => "")

/-- Modelled from the spec: `datman.scanid.parse_filename`.  A scan name is
a full identifier (with its session number) extended with
`_tag_series_description`; the description may itself contain underscores.
Returns the identifier and the tag, series and description fields. -/
def parse_filename (s : String) :
    Option (ScanIdentifier × String × String × String) :=
  match strSplitOnChar '_' s with
  | st :: si :: su :: tp :: se :: tag :: series :: d0 :: ds =>
    if validField st && validField si && validField su && validField tp &&
        validField se && validField tag && validField series &&
        (d0 :: ds).all validField then
      some (⟨st, si, su, tp, some se⟩, tag, series,
        pyJoin "_" (d0 :: ds))
    else none
  | _ => none

/-- Modelled from the spec: phantom detection is a pure function of the
subject-number field's shape (the `PHA` literal convention). -/
def is_phantom (s : String) : Bool :=
  match parse s with
  | some i => i.subject.startsWith "PHA"
  | none => false

end scanid

/-! ## Exceptions -/

/-- The Python exceptions the embedded code can raise. -/
inductive PyError where
  | dashboardException (msg : String)
  | metadataException (msg : String)
  | keyError (key : String)
  | unboundLocalError (name : String)
  | attributeError (name : String)
  deriving Repr, DecidableEq

/-! ## The file-backed metadata store (`datman/utils.py`)

A metadata file is modelled as the list of its lines, each line carrying its
trailing newline, exactly as `readlines` / `writelines` exchange them. -/

/-- Lexicographic comparison of strings by code point, the order Python's
`sorted` uses on the metadata lines. -/
def listLe : List Char → List Char → Bool
  | [], _ => true
  | _ :: _, [] => false
  | a :: as, b :: bs => if a = b then listLe as bs else decide (a < b)

/-- `a ≤ b` on strings, by code point. -/
def strLe (a b : String) : Bool := listLe a.data b.data

/-- Insert a line into an already sorted list of lines. -/
def insertLine (x : String) : List String → List String
  | [] => [x]
  | y :: ys => if strLe x y then x :: y :: ys else y :: insertLine x ys

/-- Python's `sorted` on a list of lines (insertion sort; only the sorted
order matters, not the algorithm). -/
def sortLines : List String → List String
  | [] => []
  | x :: xs => insertLine x (sortLines xs)

/-- `os.path.splitext(s)[0]`: everything before the last dot.  (Python
special-cases a leading dot in the basename; the names this is applied to
never start with a dot.) -/
def splitextRoot (s : String) : String :=
  let parts := strSplitOnChar '.' s
  if parts.length ≤ 1 then s else pyJoin "." parts.dropLast

/-- The loop body of `datman.utils._parse_checklist` for one line:
`fields = line.split()`, strip the `qc_` prefix and the extension to get
the subject ID, skip malformed IDs, keep the first of duplicate entries,
and store the whitespace-joined remaining fields as the comment. -/
def clStep (entries : List (String × String)) (line : String) :
    List (String × String) :=
  match strTokens line with
  | [] => entries
  | f0 :: rest =>
    let subid := splitextRoot (strReplace f0 "qc_" "")
    match scanid.parse subid with
    | none => entries
    | some _ =>
      if entries ≠ [] && dictHas entries subid then entries
      else
        dictInsert entries subid (strStrip (pyJoin " " rest))

/-- `datman.utils._parse_checklist` with no `subject` argument: fold the
checklist file into a subject-to-comment dictionary.  Malformed identifiers
are logged and skipped; the first of duplicate entries wins. -/
def _parse_checklist (lines : List String) : List (String × String) :=
  lines.foldl clStep []

/-- The line format `update_checklist` writes: `qc_<subjectid>.html <comment>`. -/
def checklistLine (sub comment : String) : String :=
  "qc_" ++ sub ++ ".html " ++ comment ++ "\n"

/-- The merge loop of `datman.utils.update_checklist`: each delta key is
parsed (an unparseable key is a fatal `MetadataException`), rebound to its
session-stripped form, and the delta is indexed with the *rebound* key — a
`KeyError` if the delta only holds the original key. -/
def mergeChecklistDelta (delta : List (String × String)) :
    List (String × String) → List (String × String) →
      Except PyError (List (String × String))
  | old, [] => .ok old
  | old, (subject, _) :: rest =>
    match scanid.parse subject with
    | none =>
      .error (.metadataException
        ("Attempt to add invalid subject ID " ++ subject ++ " to QC checklist"))
    | some ident =>
      let subject' := scanid.fullSubjectIdWithTimepoint ident
      match dictGet? delta subject' with
      | none => .error (.keyError subject')
      | some v => mergeChecklistDelta delta (dictInsert old subject' v) rest

/-- `datman.utils.update_checklist` when a file path is given (the
`dashboard.dash_found and not path` test is then false, so the file backend
runs): read the existing entries, merge the delta over them, and rewrite the
file in full as sorted `qc_<id>.html <comment>` lines.  The returned lines
are the contents `write_metadata` persists on a successful write. -/
def update_checklist (file : List String) (entries : List (String × String)) :
    Except PyError (List String) :=
  let old_entries := _parse_checklist file
  match mergeChecklistDelta entries old_entries entries with
  | .error e => .error e
  | .ok merged =>
    .ok (sortLines (merged.map (fun kv => checklistLine kv.1 kv.2)))

/-- `read_checklist` with a file path: circumvents the dashboard and parses
the checklist file. -/
def read_checklist (file : List String) : List (String × String) :=
  _parse_checklist file

/-- A separator of `re.split(',|\s', line)`: a comma or any whitespace. -/
def reSplitChar (c : Char) : Bool := c = ',' || wsChar c

/-- `re.split(',|\s', s)`: split at every comma or whitespace character,
keeping empty pieces. -/
def reSplitFields (s : String) : List String :=
  (splitOnP reSplitChar s.data).map String.mk

/-- The loop body of `datman.utils._parse_blacklist` for one line:
`fields = re.split(',|\s', line.strip())`, skip lines whose first field is
not a well-formed scan name (this also drops the `series\treason` header),
keep the first of duplicate entries, and store the space-joined stripped
remaining fields as the reason. -/
def blStep (entries : List (String × String)) (line : String) :
    List (String × String) :=
  match reSplitFields (strStrip line) with
  | [] => entries
  | scan_name :: rest =>
    match scanid.parse_filename scan_name with
    | none => entries
    | some _ =>
      let comment := strStrip (pyJoin " " rest)
      if scan_name = "series" then entries
      else if entries ≠ [] && dictHas entries scan_name then entries
      else dictInsert entries scan_name comment

/-- `datman.utils._parse_blacklist` with no `scan` or `subject` argument:
fold the blacklist file into a scan-name-to-reason dictionary. -/
def _parse_blacklist (lines : List String) : List (String × String) :=
  lines.foldl blStep []

/-- The line format `update_blacklist` writes: `<scan_name> <reason>`. -/
def blacklistLine (sub reason : String) : String := sub ++ " " ++ reason ++ "\n"

/-- The merge loop of `datman.utils.update_blacklist`: an unparseable scan
name is a fatal `MetadataException`; an entry with an empty reason is logged
and skipped; the rest overwrite the existing entries. -/
def mergeBlacklistDelta :
    List (String × String) → List (String × String) →
      Except PyError (List (String × String))
  | old, [] => .ok old
  | old, (scan_name, reason) :: rest =>
    match scanid.parse_filename scan_name with
    | none =>
      .error (.metadataException
        ("Attempt to add invalid scan name " ++ scan_name ++ " to blacklist"))
    | some _ =>
      if reason = "" then mergeBlacklistDelta old rest
      else mergeBlacklistDelta (dictInsert old scan_name reason) rest

/-- `datman.utils.update_blacklist` when a file path is given: read the
existing entries, merge the delta (empty reasons skipped), and rewrite the
file as the `series\treason` header followed by the sorted entry lines. -/
def update_blacklist (file : List String) (entries : List (String × String)) :
    Except PyError (List String) :=
  let old_entries := _parse_blacklist file
  match mergeBlacklistDelta old_entries entries with
  | .error e => .error e
  | .ok merged =>
    .ok ("series\treason\n" ::
      sortLines (merged.map (fun kv => blacklistLine kv.1 kv.2)))

/-- `read_blacklist` with a file path: circumvents the dashboard and parses
the blacklist file. -/
def read_blacklist (file : List String) : List (String × String) :=
  _parse_blacklist file

/-- The observable outcome of `datman.utils.write_metadata`: the final file
contents or the exception, how many write attempts were made, and how many
backoff sleeps (`time.sleep(random.uniform(0, 10))`) were taken. -/
structure WriteOutcome where
  result : Except PyError (List String)
  attempts : Nat
  sleeps : Nat
  deriving Repr

/-- `datman.utils.write_metadata lines path retry`: with no retries left the
`MetadataException` naming the path is raised; otherwise one write is
attempted (`attemptOk n` tells whether the `n`-th attempt of this call chain
succeeds), and on failure the function sleeps and recurses with `retry - 1`.
`made` counts the attempts already made. -/
def write_metadata (attemptOk : Nat → Bool) (lines : List String)
    (path : String) : Nat → Nat → WriteOutcome
  | 0, made =>
    ⟨.error (.metadataException ("Failed to update " ++ path)), made, made⟩
  | retry + 1, made =>
    if attemptOk made then ⟨.ok lines, made + 1, made⟩
    else write_metadata attemptOk lines path retry (made + 1)

/-- Append `v` to the list stored under `k` (`d[k].append(v)`). -/
def appendAt : List (String × List String) → String → String →
    List (String × List String)
  | [], _, _ => []
  | kv :: rest, k, v =>
    if kv.1 = k then (kv.1, kv.2 ++ [v]) :: appendAt rest k v
    else kv :: appendAt rest k v

/-- `datman.utils.get_subject_metadata`, expressed over the dictionaries its
`read_checklist(config=...)` and `read_blacklist(config=...)` calls return:
start from the signed-off checklist subjects (non-empty comment) each mapped
to an empty list, then append every well-formed blacklist entry to its
subject's list; a `KeyError` (subject absent from the checklist) is logged
as an inconsistency and the entry ignored. -/
def get_subject_metadata (checklist blacklist : List (String × String)) :
    List (String × List String) :=
  let all_qc : List (String × List String) :=
    checklist.filterMap
      (fun kv => if kv.2 ≠ "" then some (kv.1, ([] : List String)) else none)
  blacklist.foldl
    (fun acc kv =>
      match scanid.parse_filename kv.1 with
      | none => acc
      | some (ident, _, _, _) =>
        let subid := scanid.fullSubjectIdWithTimepoint ident
        if dictHas acc subid then appendAt acc subid kv.1
        else acc)
    all_qc

/-! ## Dashboard reconciliation (`datman/dashboard.py`)

The relational store behind the dashboard is external; the embedding keeps
the rows the embedded functions read and write, and receives the result set
of each query (and the outcome of each commit and of each call into the
absent `check_checklist` / `check_blacklist` helpers) as an argument. -/

/-- The row of the `Study` table the functions consult: its nickname, its
registered site names and its valid scan-type names. -/
structure StudyRow where
  nickname : String
  sites : List String
  scantypes : List String
  deriving Repr, DecidableEq

/-- A `Session` row.  The date is kept as its `%Y-%m-%d` rendering. -/
structure SessionRow where
  name : String
  date : Option String
  cl_comment : Option String
  siteName : String
  isPhantom : Bool
  isRepeated : Bool
  repeatCount : Nat
  deriving Repr, DecidableEq

/-- A `Scan` row.  `repeat_number` keeps the session field it was set from. -/
structure ScanRow where
  name : String
  series_number : String
  description : String
  repeat_number : Option String
  scantypeName : String
  bl_comment : Option String
  deriving Repr, DecidableEq

/-- A `Session_Scan` link row. -/
structure LinkRow where
  sessionId : Nat
  scanId : Nat
  scan_name : String
  is_primary : Bool
  deriving Repr, DecidableEq

/-- Shape check for `datetime.strptime(date, '%Y-%m-%d')`: four digits,
dash, two digits, dash, two digits.  (The in-range checks `strptime` also
performs are not modelled; no claim depends on them.) -/
def validDate (s : String) : Bool :=
  match s.data with
  | [y1, y2, y3, y4, h1, m1, m2, h2, d1, d2] =>
    y1.isDigit && y2.isDigit && y3.isDigit && y4.isDigit && h1 = '-' &&
      m1.isDigit && m2.isDigit && h2 = '-' && d1.isDigit && d2.isDigit
  | _ => false

/-- What `get_add_session` can produce when it does not raise: a session
row, Python `None`, or — through the `return DashboardException(...)` slip
on the study-not-set path — a returned (not raised) exception object. -/
inductive SessionResult where
  | obj (s : SessionRow)
  | pyNone
  | excValue (msg : String)
  deriving Repr, DecidableEq

/-- The tail of `dashboard.get_add_session` (its `db.session.commit()` and
`return dashboard_session`): a failed commit is logged and turns into
`return None`; returning the session evaluates the possibly-unbound local. -/
def sessionCommitReturn (sessionVar : Option SessionRow) (commitOk : Bool) :
    Except PyError SessionResult :=
  if !commitOk then .ok .pyNone
  else
    match sessionVar with
    | some s => .ok (.obj s)
    | none => .error (.unboundLocalError "dashboard_session")

/-- The checklist-comment sync block of `dashboard.get_add_session` (its
`check_checklist` call and the `if cl_comment and not cl_comment == ...`
update), followed by `sessionCommitReturn`.  `sessionVar = none` models the
local `dashboard_session` having never been assigned; a `ValueError` from
`check_checklist` is caught and logged, leaving `cl_comment` unbound, so the
subsequent test raises `UnboundLocalError`. -/
def sessionChecklistSync (sessionVar : Option SessionRow)
    (checkChecklist : Except Unit (Option String)) (commitOk : Bool) :
    Except PyError SessionResult :=
  match checkChecklist with
  | .error _ => .error (.unboundLocalError "cl_comment")
  | .ok cl_comment =>
    if pyTruthy cl_comment then
      match sessionVar with
      | none => .error (.unboundLocalError "dashboard_session")
      | some s =>
        let s' :=
          if cl_comment ≠ s.cl_comment then { s with cl_comment := cl_comment }
          else s
        sessionCommitReturn (some s') commitOk
    else sessionCommitReturn sessionVar commitOk

/-- `dashboard.dashboard.get_add_session`.  `qryRows` is the result set of
the `Session` query filtered by the set study and by `session_name`; the
function branches on `count() == 1` and `count() < 1` — a result set with
more than one row falls through both branches without binding
`dashboard_session`. -/
def get_add_session (study : Option StudyRow) (qryRows : List SessionRow)
    (checkChecklist : Except Unit (Option String)) (commitOk : Bool)
    (session_name : String) (date : Option String) (create : Bool) :
    Except PyError SessionResult :=
  match study with
  | none => .ok (.excValue "Study not set")
  | some study =>
    match scanid.parse session_name with
    | none =>
      .error (.dashboardException ("Invalid session name:" ++ session_name))
    | some ident =>
      let dashboard_site := study.sites.filter (fun site => site = ident.site)
      if dashboard_site = [] then .error (.dashboardException "Invalid site")
      else if pyTruthy date && !validDate (date.getD "") then
        .error (.dashboardException "Invalid date")
      else
        let dateVal : Option String := if pyTruthy date then date else none
        match qryRows with
        | [s] =>
          let s' :=
            if pyTruthy dateVal then
              let db_session_date := (s.date).getD ""
              let xnat_session_date := (dateVal).getD ""
              if db_session_date ≠ xnat_session_date then
                { s with date := dateVal }
              else s
            else s
          sessionChecklistSync (some s') checkChecklist commitOk
        | [] =>
          if create then
            let s' : SessionRow :=
              { name := session_name
                date := dateVal
                cl_comment := none
                siteName := dashboard_site.headD ""
                isPhantom := scanid.is_phantom session_name
                isRepeated := false
                repeatCount := 1 }
            sessionChecklistSync (some s') checkChecklist commitOk
          else .ok .pyNone
        | _ :: _ :: _ =>
          sessionChecklistSync none checkChecklist commitOk

/-- The log line of `get_add_scan` for a database blacklist comment that has
no counterpart in the blacklist file of record. -/
def blMismatchLog (scanName : String) (dbComment : Option String) : String :=
  "Scan:" ++ scanName ++ " has a blacklist comment in dashboard db" ++
    " which is not present in metadata/blacklist.csv." ++
    " Comment:" ++ dbComment.getD "None"

/-- The final commit of `get_add_scan`: a failure is caught by the
surrounding `except Exception` and re-raised as a bare `DashboardException`. -/
def commitScan (s : ScanRow) (commitOk : Bool) :
    Except PyError (Option ScanRow) :=
  if commitOk then .ok (some s) else .error (.dashboardException "")

/-- The blacklist reconciliation block of `dashboard.get_add_scan` (its
`check_blacklist` call, the two-armed comment comparison and the commit).
A `ValueError` from `check_blacklist` is caught and logged leaving
`bl_comment` unbound, so the first comparison raises `UnboundLocalError`
inside the `try`, which the `except Exception` turns into a bare
`DashboardException`.  Returns the outcome together with the error-log
lines this block emits. -/
def blacklistReconcile (checkBlacklist : Except Unit (Option String))
    (commitOk : Bool) (dashboard_scan : ScanRow) :
    Except PyError (Option ScanRow) × List String :=
  match checkBlacklist with
  | .error _ => (.error (.dashboardException ""), [])
  | .ok bl_comment =>
    if !pyTruthy bl_comment && bl_comment ≠ dashboard_scan.bl_comment then
      (commitScan dashboard_scan commitOk,
        [blMismatchLog dashboard_scan.name dashboard_scan.bl_comment])
    else if pyTruthy bl_comment && bl_comment ≠ dashboard_scan.bl_comment then
      (commitScan { dashboard_scan with bl_comment := bl_comment } commitOk, [])
    else (commitScan dashboard_scan commitOk, [])

/-- `dashboard.dashboard.get_add_scan`.  `qryRows` is the result set of the
joined `Scan` query; `sessionResult` is the outcome of the `get_add_session`
call made on the create path; `scantypeFound` tells whether `get_scantype`
finds the tag.  Only the log lines of the blacklist reconciliation block are
tracked.  Using the `None` (or the mistakenly returned exception object)
produced by `get_add_session` as a session raises `AttributeError` when the
link row dereferences `dashboard_session.id`. -/
def get_add_scan (study : Option StudyRow) (qryRows : List ScanRow)
    (sessionResult : Except PyError SessionResult) (scantypeFound : Bool)
    (checkBlacklist : Except Unit (Option String)) (commitOk : Bool)
    (scan_name : String) (create : Bool) :
    Except PyError (Option ScanRow) × List String :=
  match study with
  | none => (.error (.dashboardException "Study not set"), [])
  | some study =>
    match scanid.parse_filename scan_name with
    | none => (.error (.dashboardException "Invalid scan_name"), [])
    | some (ident, tag, series, desc) =>
      let scan_id := scanid.identStr ident ++ "_" ++ tag ++ "_" ++ series
      match qryRows with
      | [s] => blacklistReconcile checkBlacklist commitOk s
      | _ :: _ :: _ => (.error (.dashboardException "Scan not unique"), [])
      | [] =>
        if !create then (.ok none, [])
        else
          match sessionResult with
          | .error e => (.error e, [])
          | .ok sr =>
            if !scantypeFound then
              (.error (.dashboardException "Invalid scantype"), [])
            else if !(study.scantypes.contains tag) then
              (.error (.dashboardException "Invalid scantype"), [])
            else
              match sr with
              | .obj _ =>
                let dashboard_scan : ScanRow :=
                  { name := scan_id
                    series_number := series
                    description := desc
                    repeat_number := ident.session
                    scantypeName := tag
                    bl_comment := none }
                -- the Session_Scan link is created with is_primary = True
                blacklistReconcile checkBlacklist commitOk dashboard_scan
              | _ => (.error (.attributeError "id"), [])

/-- `dashboard.get_add_session_scan_link`: return the existing link when the
query for (session, scan) finds exactly one row; otherwise build a fresh
link whose `is_primary` field is assigned the literal `False` — the
function's `is_primary` argument is never consulted.  The boolean of the
result records whether a row was created. -/
def get_add_session_scan_link (existing : List LinkRow)
    (target_session scan : Nat) (scanName : String)
    (new_name : Option String) (is_primary : Bool) : LinkRow × Bool :=
  let qry := existing.filter
    (fun l => l.sessionId = target_session && l.scanId = scan)
  match qry with
  | [l] => (l, false)
  | _ =>
    ({ sessionId := target_session
       scanId := scan
       scan_name := if pyTruthy new_name then new_name.getD "" else scanName
       is_primary := false }, true)

/-! ## The submission driver (`bin/dm-proc-enigma.py`)

The driver is modelled as a pure function from its inputs — the filesystem,
the parsed arguments, and the checklist rows the external `dm.proc` steps
produce — to a trace of side effects.  The queue commands built by the
absent `dm.proc.make_file_qbatch_command` / `make_piped_qbatch_command` are
modelled from the specification's submission interface as structured
values. -/

/-- Modelled from the spec: a queue submission command — either a batched
job array built from a command file, or a piped single command that can
depend on a whole earlier array via `afterok`. -/
inductive QCmd where
  | fileBatch (cmdsFile jobName logDir walltime : String)
  | piped (cmd jobName logDir walltime : String) (afterok : String)
  deriving Repr, DecidableEq

/-- A side effect the driver performs. -/
inductive Effect where
  | mkdirs (path : String)
  | writeFile (path content : String)
  | chmod (path : String)
  | tmpWrite (path content : String)
  | execCmd (cmd : QCmd)
  | dryRunLog (cmd : QCmd)
  | checklistCsv (path : String)
  deriving Repr, DecidableEq

/-- `os.path.join` for the simple relative components the driver joins. -/
def pjoin (a b : String) : String := a ++ "/" ++ b

/-- `dm.utils.run(cmd, dryrun)`: in dry-run mode the command is only logged
("Performing dry-run. Skipped command"), otherwise it is executed. -/
def runEffect (dryrun : Bool) (cmd : QCmd) : Effect :=
  if dryrun then .dryRunLog cmd else .execCmd cmd

/-- The queue command an effect hands to the queue, if any. -/
def jobOf : Effect → Option QCmd
  | .execCmd q => some q
  | _ => none

/-- The jobs a trace actually hands to the queue. -/
def submittedJobs (t : List Effect) : List QCmd := t.filterMap jobOf

/-- Whether an effect is the final `checklist.to_csv` write. -/
def isChecklistWrite : Effect → Bool
  | .checklistCsv _ => true
  | _ => false

/-- The persistent (non-temporary) file writes of a trace. -/
def persistentWrites (t : List Effect) : List String :=
  t.filterMap (fun e => match e with | .writeFile p _ => some p | _ => none)

/-- The body `write_run_script` writes for a given script name
(`run_engimadti.sh` → the per-subject `doInd` step, `concatresults.sh` →
the concatenation plus QC step). -/
def write_run_script_content (bname output_dir : String)
    (CALC_MD CALC_ALL : Bool) : String :=
  let header := "#!/bin/bash\n\n" ++
    "## this script was created by dm-proc-engima.py\n\n" ++
    "## Prints loaded modules to the log\nmodule list\n\n"
  if bname = "run_engimadti.sh" then
    header ++ "OUTDIR=${1}\n" ++ "FAMAP=${2}\n" ++ "\ndoInd-enigma-dti.py " ++
      (if CALC_MD then "--calc-MD " else "") ++
      (if CALC_ALL then "--calc-all " else "") ++ "${OUTDIR} ${FAMAP} \n"
  else if bname = "concatresults.sh" then
    header ++ "OUTDIR=" ++ output_dir ++ " \n" ++
      "\ndm-proc-enigma-concat.py ${OUTDIR} \"FA\"" ++
        "\"${OUTDIR}/enigmaDTI-FA-results.csv\"\n" ++
      (if CALC_MD || CALC_ALL then
        "\ndm-proc-enigma-concat.py ${OUTDIR} \"MD\"" ++
          "\"${OUTDIR}/enigmaDTI-MD-results.csv\"\n"
       else "") ++
      (if CALC_ALL then
        "\ndm-proc-enigma-concat.py ${OUTDIR} \"AD\"" ++
          "\"${OUTDIR}/enigmaDTI-AD-results.csv\"\n" ++
        "\ndm-proc-enigma-concat.py ${OUTDIR} \"RD\"" ++
          "\"${OUTDIR}/enigmaDTI-RD-results.csv\"\n"
       else "") ++
      "\ndm-qc-enigma.py " ++
      (if CALC_MD then "--calc-MD " else "") ++
      (if CALC_ALL then "--calc-all " else "") ++ "${OUTDIR} \n"
  else header

/-- `write_run_scripts`: for each script name, if the file already exists
`check_runsh` writes a throwaway copy into a temp directory and compares; a
mismatch is `sys.exit` (completed = `false`).  A missing script is written
(and `chmod`ed) regardless of any dry-run flag — the flag is not threaded
into this function. -/
def write_run_scripts (fs : List (String × String))
    (run_dir output_dir tempDir : String) (CALC_MD CALC_ALL : Bool) :
    List String → List Effect × Bool
  | [] => ([], true)
  | name :: rest =>
    let runsh := pjoin run_dir name
    let content := write_run_script_content name output_dir CALC_MD CALC_ALL
    match dictGet? fs runsh with
    | some existing =>
      let checkEffs := [Effect.tmpWrite (pjoin tempDir name) content,
        Effect.chmod (pjoin tempDir name)]
      if existing = content then
        let next := write_run_scripts fs run_dir output_dir tempDir
          CALC_MD CALC_ALL rest
        (checkEffs ++ next.1, next.2)
      else (checkEffs, false)
    | none =>
      let writeEffs := [Effect.writeFile runsh content, Effect.chmod runsh]
      let next := write_run_scripts fs run_dir output_dir tempDir
        CALC_MD CALC_ALL rest
      (writeEffs ++ next.1, next.2)

/-- `subject_previously_completed`: the completed-output sentinel is the ROI
average CSV named after the FA image with `.nii` and `.gz` stripped. -/
def subject_previously_completed (fs : List (String × String))
    (output_dir subid FA_img : String) : Bool :=
  let edti_completed := pjoin (pjoin (pjoin output_dir subid) "ROI")
    ((strReplace (strReplace FA_img ".nii" "") ".gz" "") ++
      "skel_ROIout_avg.csv")
  dictHas fs edti_completed

/-- A row of the ENIGMA-DTI checklist after the external `dm.proc` loading
and image-finding steps. -/
structure ChecklistRow where
  id : String
  FA_nii : Option String
  date_ran : Option String
  deriving Repr, DecidableEq

/-- One command line emitted into the batch file, kept with the subject and
FA image it was emitted for. -/
structure BatchEntry where
  subid : String
  smap : String
  line : String
  deriving Repr, DecidableEq

/-- The command line written for one subject. -/
def batchCmdLine (run_dir script output_dir input_dir subid smap : String) :
    String :=
  "bash -l " ++ run_dir ++ "/" ++ script ++ " " ++ pjoin output_dir subid ++
    " " ++ pjoin (pjoin input_dir subid) smap ++ "\n"

/-- The per-subject loop of `main`: skip a row when the subject filter does
not match, when the `FA_nii` column is null, or when the subject's sentinel
output already exists; otherwise emit its command line and stamp
`date_ran`.  Returns the emitted entries and the updated rows. -/
def buildBatch (fs : List (String × String)) (subject_filter : Option String)
    (output_dir input_dir run_dir script today : String) :
    List ChecklistRow → List BatchEntry × List ChecklistRow
  | [] => ([], [])
  | row :: rest =>
    let next := buildBatch fs subject_filter output_dir input_dir run_dir
      script today rest
    if pyTruthy subject_filter &&
        !pyIn (subject_filter.getD "") row.id then
      (next.1, row :: next.2)
    else
      match row.FA_nii with
      | none => (next.1, row :: next.2)
      | some smap =>
        if subject_previously_completed fs output_dir row.id smap then
          (next.1, row :: next.2)
        else
          ({ subid := row.id, smap := smap,
             line := batchCmdLine run_dir script output_dir input_dir
               row.id smap } :: next.1,
           { row with date_ran := some today } :: next.2)

/-- The arguments and externally produced inputs of `main`: the parsed
options, the subject list from `dm.proc.get_subject_list`, and the checklist
rows after `dm.proc.load_checklist` / `add_new_subjects_to_checklist` /
`find_images`. -/
structure MainArgs where
  postOnly : Bool
  noPost : Bool
  dryRun : Bool
  calcMD : Bool
  calcALL : Bool
  subject_filter : Option String
  walltime : String
  walltime_post : String
  tempDir : String
  today : String
  timestamp : String
  studyTag : String
  input_dir : String
  output_dir : String
  subjects : List String
  checklist : List ChecklistRow
  deriving Repr

/-- The observable outcome of a `main` run. -/
structure MainOutcome where
  trace : List Effect
  batch : List BatchEntry
  checklistRows : List ChecklistRow
  completed : Bool
  deriving Repr

/-- `bin/dm-proc-enigma.py main`, as a function from the filesystem and its
inputs to its effect trace.  The local `DRYRUN` read from `--dry-run`
guards only the two `dm.utils.run` submissions and the final
`checklist.to_csv`; `--no-post` is parsed but never consulted. -/
def enigmaMain (fs : List (String × String)) (a : MainArgs) : MainOutcome :=
  let log_dir := pjoin a.output_dir "logs"
  let run_dir := pjoin a.output_dir "bin"
  let dirEffs := [Effect.mkdirs log_dir, Effect.mkdirs run_dir]
  if a.subjects.length = 0 then
    -- "No outstanding scans to process." and sys.exit(1)
    { trace := dirEffs, batch := [], checklistRows := a.checklist,
      completed := false }
  else
    let scripts := write_run_scripts fs run_dir a.output_dir a.tempDir
      a.calcMD a.calcALL ["run_engimadti.sh", "concatresults.sh"]
    if !scripts.2 then
      { trace := dirEffs ++ scripts.1, batch := [],
        checklistRows := a.checklist, completed := false }
    else
      let checklist_file := pjoin a.output_dir "ENIGMA-DTI-checklist.csv"
      let job_name_stem := "edti" ++ a.studyTag ++ "_" ++ a.timestamp
      if a.postOnly then
        -- the loop is skipped, submit_edti stays False: no array job, and
        -- the post job (gated on submit_edti as well) is not submitted
        { trace := dirEffs ++ scripts.1 ++
            (if !a.dryRun then [Effect.checklistCsv checklist_file] else []),
          batch := [], checklistRows := a.checklist, completed := true }
      else
        let cmds_file := pjoin a.tempDir "commands.txt"
        let built := buildBatch fs a.subject_filter a.output_dir a.input_dir
          run_dir "run_engimadti.sh" a.today a.checklist
        let submit_edti := decide (built.1 ≠ [])
        let post_edit_cmd := "echo bash -l " ++ run_dir ++ "/concatresults.sh"
        { trace := dirEffs ++ scripts.1 ++
            [Effect.tmpWrite cmds_file
              (String.join (built.1.map BatchEntry.line))] ++
            (if submit_edti then
              [runEffect a.dryRun
                (QCmd.fileBatch cmds_file job_name_stem log_dir a.walltime)]
             else []) ++
            (if submit_edti then
              [runEffect a.dryRun
                (QCmd.piped post_edit_cmd (job_name_stem ++ "_post")
                  log_dir a.walltime_post job_name_stem)]
             else []) ++
            (if !a.dryRun then [Effect.checklistCsv checklist_file] else []),
          batch := built.1, checklistRows := built.2, completed := true }

/-- The accumulator step of `get_subject_metadata`'s blacklist fold. -/
def gsmStep (acc : List (String × List String)) (kv : String × String) :
    List (String × List String) :=
  match scanid.parse_filename kv.1 with
  | none => acc
  | some (ident, _, _, _) =>
    if dictHas acc (scanid.fullSubjectIdWithTimepoint ident) then
      appendAt acc (scanid.fullSubjectIdWithTimepoint ident) kv.1
    else acc

/-- Insertion into a sorted list under an arbitrary boolean order. -/
def insertBy {α : Type} (le : α → α → Bool) (x : α) : List α → List α
  | [] => [x]
  | y :: ys => if le x y then x :: y :: ys else y :: insertBy le x ys

/-- Insertion sort under an arbitrary boolean order. -/
def sortBy {α : Type} (le : α → α → Bool) : List α → List α
  | [] => []
  | x :: xs => insertBy le x (sortBy le xs)

/-! ## Normalisation of stored comments

Re-reading a written checklist or blacklist line recovers the comment only
up to the whitespace (and, for the blacklist, comma) handling of the
parser; these two functions are exactly that reading-back transformation. -/

/-- What a checklist comment becomes after a write/read cycle:
`' '.join(line.split()[1:]).strip()`. -/
def clNormal (v : String) : String := strStrip (pyJoin " " (strTokens v))

/-- What a blacklist reason becomes after a write/read cycle:
the trailing whitespace is stripped with the line, the rest is re-split at
commas/whitespace and joined with single spaces, then stripped. -/
def blNormal (v : String) : String :=
  strStrip (pyJoin " "
    ((splitOnP reSplitChar (pyStripRight v.data)).map String.mk))

/-! ## Retry semantics of `write_metadata` -/

theorem write_metadata_all_fail (attemptOk : Nat → Bool) (lines : List String)
    (path : String) :
    ∀ retry made, (∀ n, made ≤ n → n < made + retry → attemptOk n = false) →
      write_metadata attemptOk lines path retry made =
        ⟨.error (.metadataException ("Failed to update " ++ path)),
          made + retry, made + retry⟩ := by
  intro retry
  induction retry with
  | zero => intro made _; simp [write_metadata]
  | succ r ih =>
    intro made h
    have h0 : attemptOk made = false := h made (Nat.le_refl _) (by omega)
    have hrec := ih (made + 1) (fun n h1 h2 => h n (by omega) (by omega))
    have e1 : made + 1 + r = made + (r + 1) := by omega
    simp only [write_metadata, h0, if_false, Bool.false_eq_true]
    rw [hrec, e1]

theorem write_metadata_first_success (attemptOk : Nat → Bool)
    (lines : List String) (path : String) :
    ∀ retry made k, k < retry →
      (∀ j, made ≤ j → j < made + k → attemptOk j = false) →
      attemptOk (made + k) = true →
      write_metadata attemptOk lines path retry made =
        ⟨.ok lines, made + k + 1, made + k⟩ := by
  intro retry
  induction retry with
  | zero => intro made k hk; omega
  | succ r ih =>
    intro made k hk hfail hsucc
    cases k with
    | zero =>
      have h0 : attemptOk made = true := by simpa using hsucc
      simp [write_metadata, h0]
    | succ k' =>
      have h0 : attemptOk made = false := hfail made (Nat.le_refl _) (by omega)
      have hrec := ih (made + 1) k' (by omega)
        (fun j h1 h2 => hfail j (by omega) (by omega))
        (by
          have e : made + 1 + k' = made + (k' + 1) := by omega
          rw [e]; exact hsucc)
      have e1 : made + 1 + k' = made + (k' + 1) := by omega
      simp only [write_metadata, h0, if_false, Bool.false_eq_true]
      rw [hrec, e1]

/-- C6: `write_metadata` makes exactly `retry` attempts (sleeping a
randomized backoff after each failed one) when every attempt fails, and then
raises the `MetadataException` naming the path; if some attempt succeeds
first, it returns normally and the destination holds exactly the given
lines. -/
theorem C6_write_metadata_bounded_retry_then_fatal (attemptOk : Nat → Bool)
    (lines : List String) (path : String) (retry : Nat) :
    ((∀ n, n < retry → attemptOk n = false) →
      write_metadata attemptOk lines path retry 0 =
        ⟨.error (.metadataException ("Failed to update " ++ path)),
          retry, retry⟩)
  ∧ (∀ k, k < retry → (∀ j, j < k → attemptOk j = false) →
      attemptOk k = true →
      write_metadata attemptOk lines path retry 0 = ⟨.ok lines, k + 1, k⟩) := by
  constructor
  · intro h
    have := write_metadata_all_fail attemptOk lines path retry 0
      (fun n _ h2 => h n (by omega))
    simpa using this
  · intro k hk hfail hsucc
    have := write_metadata_first_success attemptOk lines path retry 0 k hk
      (fun j _ h2 => hfail j (by omega)) (by simpa using hsucc)
    simpa using this

/-- Witness for C6 at `retry = 3`: a write that fails on every attempt
raises the `MetadataException` for the path after exactly 3 attempts and 3
backoff sleeps, and a write whose second attempt succeeds returns the lines
after 2 attempts. -/
theorem C6_write_metadata_bounded_retry_then_fatal_witness :
    write_metadata (fun _ => false) ["qc_A_B_0001_01.html ok\n"]
        "metadata/checklist.csv" 3 0 =
      ⟨.error (.metadataException "Failed to update metadata/checklist.csv"),
        3, 3⟩
  ∧ write_metadata (fun n => n = 1) ["qc_A_B_0001_01.html ok\n"]
        "metadata/checklist.csv" 3 0 =
      ⟨.ok ["qc_A_B_0001_01.html ok\n"], 2, 1⟩ :=
  ⟨(C6_write_metadata_bounded_retry_then_fatal (fun _ => false) _ _ 3).1
      (fun n _ => rfl),
    (C6_write_metadata_bounded_retry_then_fatal (fun n => n = 1) _ _ 3).2 1
      (by decide) (by decide) (by decide)⟩

/-! ## C1: the ambiguous session lookup -/

/-- C1: with the study set, a parseable session name, a registered site and
no date argument, a session query returning *two* rows falls through both
count branches of `get_add_session` and crashes on the unbound local
`dashboard_session` — an `UnboundLocalError`, not the ambiguous-match
`DashboardException` the specification promises. -/
theorem C1_ambiguous_session_lookup_is_unbound_local_crash :
    get_add_session (some ⟨"STU", ["ABC"], ["T1"]⟩)
      [⟨"STU_ABC_0001_01", none, none, "ABC", false, false, 1⟩,
       ⟨"STU_ABC_0001_01", none, none, "ABC", false, false, 1⟩]
      (.ok none) true "STU_ABC_0001_01" none false =
    .error (.unboundLocalError "dashboard_session") := by
  rfl

/-! ## C9: blacklist comment reconciliation on a scan -/

/-- C9: in the blacklist reconciliation block of `get_add_scan`, the stored
`bl_comment` is assigned only when the file-of-record comment is truthy and
differs from the stored value (so an existing comment is never overwritten
with emptiness — a falsy file comment always leaves the stored comment
unchanged), the database-comment-without-file-entry case emits exactly the
mismatch error log, and on a unique query match `get_add_scan` runs exactly
this block. -/
theorem C9_bl_comment_never_cleared_and_mismatch_logged
    (bl : Option String) (commitOk : Bool) (scan : ScanRow) :
    (∀ s', (blacklistReconcile (.ok bl) commitOk scan).1 = .ok (some s') →
        s'.bl_comment = scan.bl_comment ∨
          (pyTruthy bl = true ∧ bl ≠ scan.bl_comment ∧ s'.bl_comment = bl))
  ∧ (pyTruthy bl = false →
      ∀ s', (blacklistReconcile (.ok bl) commitOk scan).1 = .ok (some s') →
        s'.bl_comment = scan.bl_comment)
  ∧ (pyTruthy bl = false → bl ≠ scan.bl_comment →
      (blacklistReconcile (.ok bl) commitOk scan).2 =
        [blMismatchLog scan.name scan.bl_comment])
  ∧ (∀ (study : StudyRow) (sres : Except PyError SessionResult)
        (stf : Bool) (name : String) (create : Bool),
      (scanid.parse_filename name).isSome = true →
      get_add_scan (some study) [scan] sres stf (.ok bl) commitOk name create =
        blacklistReconcile (.ok bl) commitOk scan) := by
  have hchar : blacklistReconcile (.ok bl) commitOk scan =
      ((if commitOk = true then
          .ok (some (if pyTruthy bl = true ∧ bl ≠ scan.bl_comment then
            { scan with bl_comment := bl } else scan))
        else .error (.dashboardException "")),
       if pyTruthy bl = false ∧ bl ≠ scan.bl_comment then
         [blMismatchLog scan.name scan.bl_comment] else []) := by
    unfold blacklistReconcile commitScan
    by_cases ht : pyTruthy bl = true <;> by_cases he : bl = scan.bl_comment <;>
      simp [ht, he]
  refine ⟨?_, ?_, ?_, ?_⟩
  · intro s' hs'
    rw [hchar] at hs'
    by_cases hc : commitOk = true
    · simp only [hc, if_true, Except.ok.injEq, Option.some.injEq] at hs'
      by_cases hcond : pyTruthy bl = true ∧ bl ≠ scan.bl_comment
      · right
        refine ⟨hcond.1, hcond.2, ?_⟩
        rw [← hs']
        simp [hcond.1, hcond.2]
      · left
        rw [← hs']
        simp only [hcond, if_false]
    · simp [hc] at hs'
  · intro ht s' hs'
    rw [hchar] at hs'
    by_cases hc : commitOk = true
    · simp only [hc, if_true, Except.ok.injEq, Option.some.injEq] at hs'
      have hcond : ¬ (pyTruthy bl = true ∧ bl ≠ scan.bl_comment) := by
        intro hcontra; rw [ht] at hcontra; exact absurd hcontra.1 (by simp)
      simp only [hcond, if_false] at hs'
      rw [← hs']
    · simp [hc] at hs'
  · intro ht he
    rw [hchar]
    simp [ht, he]
  · intro study sres stf name create hname
    obtain ⟨x, hx⟩ := Option.isSome_iff_exists.mp hname
    obtain ⟨ident, tag, series, desc⟩ := x
    simp [get_add_scan, hx]

/-- Witness for C9: with stored comment `"bad slice"` and an absent
file-of-record entry, the reconciliation keeps the stored comment and logs
the mismatch, and `get_add_scan` on a unique match runs the block. -/
theorem C9_bl_comment_never_cleared_and_mismatch_logged_witness :
    ((blacklistReconcile (.ok none) true
        ⟨"STU_ABC_0001_01_02_T1_03_d", "03", "d", some "02", "T1",
          some "bad slice"⟩).2 =
      [blMismatchLog "STU_ABC_0001_01_02_T1_03_d" (some "bad slice")])
  ∧ (∀ s', (blacklistReconcile (.ok none) true
        ⟨"STU_ABC_0001_01_02_T1_03_d", "03", "d", some "02", "T1",
          some "bad slice"⟩).1 = .ok (some s') →
      s'.bl_comment = some "bad slice") :=
  ⟨(C9_bl_comment_never_cleared_and_mismatch_logged none true
      ⟨"STU_ABC_0001_01_02_T1_03_d", "03", "d", some "02", "T1",
        some "bad slice"⟩).2.2.1 (by decide) (by decide),
   fun s' hs' =>
    (C9_bl_comment_never_cleared_and_mismatch_logged none true
      ⟨"STU_ABC_0001_01_02_T1_03_d", "03", "d", some "02", "T1",
        some "bad slice"⟩).2.1 (by decide) s' hs'⟩

/-! ## C10: `get_add_session_scan_link` ignores its `is_primary` argument -/

/-- C10: when no existing link row matches the given session and scan, the
link `get_add_session_scan_link` creates has `is_primary = False` whatever
value was passed for the function's `is_primary` argument. -/
theorem C10_created_link_is_never_primary (existing : List LinkRow)
    (target_session scan : Nat) (scanName : String) (new_name : Option String)
    (is_primaryArg : Bool)
    (h : existing.filter
        (fun l => l.sessionId = target_session && l.scanId = scan) = []) :
    (get_add_session_scan_link existing target_session scan scanName
        new_name is_primaryArg).2 = true
  ∧ ((get_add_session_scan_link existing target_session scan scanName
        new_name is_primaryArg).1).is_primary = false := by
  simp [get_add_session_scan_link, h]

/-- Witness for C10: creating a link with `is_primary = true` requested
still stores `is_primary = false`. -/
theorem C10_created_link_is_never_primary_witness :
    (get_add_session_scan_link [] 7 9 "STU_ABC_0001_01_02_T1_03" none
        true).2 = true
  ∧ ((get_add_session_scan_link [] 7 9 "STU_ABC_0001_01_02_T1_03" none
        true).1).is_primary = false :=
  C10_created_link_is_never_primary [] 7 9 "STU_ABC_0001_01_02_T1_03" none
    true rfl

/-! ## Lemmas on the driver's effect traces -/

@[simp] theorem jobOf_mkdirs (p : String) : jobOf (.mkdirs p) = none := rfl
@[simp] theorem jobOf_writeFile (p c : String) :
    jobOf (.writeFile p c) = none := rfl
@[simp] theorem jobOf_chmod (p : String) : jobOf (.chmod p) = none := rfl
@[simp] theorem jobOf_tmpWrite (p c : String) :
    jobOf (.tmpWrite p c) = none := rfl
@[simp] theorem jobOf_dryRunLog (q : QCmd) : jobOf (.dryRunLog q) = none := rfl
@[simp] theorem jobOf_checklistCsv (p : String) :
    jobOf (.checklistCsv p) = none := rfl
@[simp] theorem jobOf_execCmd (q : QCmd) : jobOf (.execCmd q) = some q := rfl

theorem write_run_scripts_effect_shapes (fs : List (String × String))
    (rd od td : String) (m1 m2 : Bool) :
    ∀ names e, e ∈ (write_run_scripts fs rd od td m1 m2 names).1 →
      jobOf e = none ∧ isChecklistWrite e = false := by
  intro names
  induction names with
  | nil => intro e he; simp [write_run_scripts] at he
  | cons name rest ih =>
    intro e he
    simp only [write_run_scripts] at he
    split at he
    · split at he
      · rcases List.mem_append.mp he with h | h
        · simp only [List.mem_cons, List.not_mem_nil, or_false] at h
          rcases h with h | h <;> (subst h; exact ⟨rfl, rfl⟩)
        · exact ih e h
      · simp only [List.mem_cons, List.not_mem_nil, or_false] at he
        rcases he with h | h <;> (subst h; exact ⟨rfl, rfl⟩)
    · rcases List.mem_append.mp he with h | h
      · simp only [List.mem_cons, List.not_mem_nil, or_false] at h
        rcases h with h | h <;> (subst h; exact ⟨rfl, rfl⟩)
      · exact ih e h

theorem filterMap_jobOf_write_run_scripts (fs : List (String × String))
    (rd od td : String) (m1 m2 : Bool) (names : List String) :
    (write_run_scripts fs rd od td m1 m2 names).1.filterMap jobOf = [] := by
  refine List.filterMap_eq_nil_iff.mpr ?_
  intro e he
  exact (write_run_scripts_effect_shapes fs rd od td m1 m2 names e he).1

theorem no_checklistWrite_write_run_scripts (fs : List (String × String))
    (rd od td : String) (m1 m2 : Bool) (names : List String) :
    (write_run_scripts fs rd od td m1 m2 names).1.any isChecklistWrite =
      false := by
  rw [List.any_eq_false]
  intro e he
  simp [(write_run_scripts_effect_shapes fs rd od td m1 m2 names e he).2]

/-! ## Lemmas on the per-subject batch loop -/

theorem buildBatch_entries_have_no_sentinel (fs : List (String × String))
    (sf : Option String) (od idir rd script today : String) :
    ∀ rows, ∀ e ∈ (buildBatch fs sf od idir rd script today rows).1,
      subject_previously_completed fs od e.subid e.smap = false := by
  intro rows
  induction rows with
  | nil => intro e he; simp [buildBatch] at he
  | cons row rest ih =>
    intro e he
    simp only [buildBatch] at he
    split at he
    · exact ih e he
    · split at he
      · exact ih e he
      · rename_i smap hsm
        split at he
        · exact ih e he
        · rename_i hsent
          rcases List.mem_cons.mp he with h | h
          · subst h
            simpa using hsent
          · exact ih e h

theorem buildBatch_empty_of_all_sentinels (fs : List (String × String))
    (sf : Option String) (od idir rd script today : String) :
    ∀ rows,
      (∀ row ∈ rows,
        (pyTruthy sf = true → pyIn (sf.getD "") row.id = true) →
        ∀ smap, row.FA_nii = some smap →
          subject_previously_completed fs od row.id smap = true) →
      (buildBatch fs sf od idir rd script today rows).1 = [] := by
  intro rows
  induction rows with
  | nil => intro _; simp [buildBatch]
  | cons row rest ih =>
    intro h
    have hrest := ih (fun r hr => h r (List.mem_cons_of_mem _ hr))
    have hrow := h row (List.mem_cons_self _ _)
    simp only [buildBatch]
    split
    · exact hrest
    · rename_i hfilter
      split
      · exact hrest
      · rename_i smap hsm
        split
        · exact hrest
        · rename_i hsent
          exfalso
          apply hsent
          apply hrow _ smap hsm
          intro htruthy
          by_contra hin
          apply hfilter
          simp only [Bool.not_eq_true] at hin
          simp [htruthy, hin]

/-! ## C3: sentinel files are the idempotency guard -/

/-- C3: every command line the driver emits is for a subject whose sentinel
output file does not exist; consequently, when every candidate row's
sentinel exists (among the rows passing the subject filter and carrying an
FA image), the batch stays empty and no job at all is handed to the
queue. -/
theorem C3_sentinel_idempotency (fs : List (String × String)) (a : MainArgs) :
    (∀ e ∈ (enigmaMain fs a).batch,
      subject_previously_completed fs a.output_dir e.subid e.smap = false)
  ∧ ((∀ row ∈ a.checklist,
        (pyTruthy a.subject_filter = true →
          pyIn (a.subject_filter.getD "") row.id = true) →
        ∀ smap, row.FA_nii = some smap →
          subject_previously_completed fs a.output_dir row.id smap = true) →
      (enigmaMain fs a).batch = [] ∧
        submittedJobs (enigmaMain fs a).trace = []) := by
  constructor
  · intro e he
    simp only [enigmaMain] at he
    split at he
    · simp at he
    · split at he
      · simp at he
      · split at he
        · simp at he
        · exact buildBatch_entries_have_no_sentinel fs a.subject_filter
            a.output_dir a.input_dir (pjoin a.output_dir "bin")
            "run_engimadti.sh" a.today a.checklist e he
  · intro h
    have hempty := buildBatch_empty_of_all_sentinels fs a.subject_filter
      a.output_dir a.input_dir (pjoin a.output_dir "bin")
      "run_engimadti.sh" a.today a.checklist h
    simp only [enigmaMain]
    split
    · exact ⟨rfl, rfl⟩
    · split
      · constructor
        · rfl
        · simp [submittedJobs, filterMap_jobOf_write_run_scripts]
      · split
        · constructor
          · rfl
          · simp only [submittedJobs]
            split <;> simp [filterMap_jobOf_write_run_scripts]
        · refine ⟨hempty, ?_⟩
          simp [submittedJobs, filterMap_jobOf_write_run_scripts, hempty,
            apply_ite (List.filterMap jobOf)]

/-- Witness for C3: one subject whose ROI average CSV sentinel exists —
the batch is empty and nothing is submitted. -/
theorem C3_sentinel_idempotency_witness :
    (enigmaMain
      [("out/STU_ABC_0001_01/ROI/STU_ABC_0001_01_FAskel_ROIout_avg.csv", "")]
      ⟨false, false, false, false, false, none, "2:00:00", "2:00:00", "tmp",
        "2020-01-01", "20200101-000000", "STU", "in", "out",
        ["STU_ABC_0001_01"],
        [⟨"STU_ABC_0001_01", some "STU_ABC_0001_01_FA.nii.gz", none⟩]⟩).batch
      = []
  ∧ submittedJobs (enigmaMain
      [("out/STU_ABC_0001_01/ROI/STU_ABC_0001_01_FAskel_ROIout_avg.csv", "")]
      ⟨false, false, false, false, false, none, "2:00:00", "2:00:00", "tmp",
        "2020-01-01", "20200101-000000", "STU", "in", "out",
        ["STU_ABC_0001_01"],
        [⟨"STU_ABC_0001_01", some "STU_ABC_0001_01_FA.nii.gz", none⟩]⟩).trace
      = [] :=
  (C3_sentinel_idempotency _ _).2 (by
    intro row hr _ smap hsm
    simp only [List.mem_singleton] at hr
    subst hr
    simp only at hsm
    injection hsm with h
    subst h
    decide)

/-! ## C4: submission happens exactly when lines were written -/

@[simp] theorem isChecklistWrite_mkdirs (p : String) :
    isChecklistWrite (.mkdirs p) = false := rfl
@[simp] theorem isChecklistWrite_writeFile (p c : String) :
    isChecklistWrite (.writeFile p c) = false := rfl
@[simp] theorem isChecklistWrite_chmod (p : String) :
    isChecklistWrite (.chmod p) = false := rfl
@[simp] theorem isChecklistWrite_tmpWrite (p c : String) :
    isChecklistWrite (.tmpWrite p c) = false := rfl
@[simp] theorem isChecklistWrite_execCmd (q : QCmd) :
    isChecklistWrite (.execCmd q) = false := rfl
@[simp] theorem isChecklistWrite_dryRunLog (q : QCmd) :
    isChecklistWrite (.dryRunLog q) = false := rfl
@[simp] theorem isChecklistWrite_checklistCsv (p : String) :
    isChecklistWrite (.checklistCsv p) = true := rfl

/-- C4: in a completed non-dry run, the per-subject array job and the
dependent consolidation job are submitted if and only if at least one
command line was written: a non-empty batch yields exactly one batched job
under the timestamped prefix followed by exactly one piped job named
`<prefix>_post` depending on the array via `afterok = prefix`; an empty
batch yields no submission at all. -/
theorem C4_jobs_iff_batch_nonempty (fs : List (String × String))
    (a : MainArgs) (hdry : a.dryRun = false)
    (hcomp : (enigmaMain fs a).completed = true) :
    ((enigmaMain fs a).batch ≠ [] →
      submittedJobs (enigmaMain fs a).trace =
        [.fileBatch (pjoin a.tempDir "commands.txt")
            ("edti" ++ a.studyTag ++ "_" ++ a.timestamp)
            (pjoin a.output_dir "logs") a.walltime,
         .piped ("echo bash -l " ++ pjoin a.output_dir "bin" ++
              "/concatresults.sh")
            ("edti" ++ a.studyTag ++ "_" ++ a.timestamp ++ "_post")
            (pjoin a.output_dir "logs") a.walltime_post
            ("edti" ++ a.studyTag ++ "_" ++ a.timestamp)])
  ∧ ((enigmaMain fs a).batch = [] →
      submittedJobs (enigmaMain fs a).trace = []) := by
  by_cases h1 : a.subjects.length = 0
  · exfalso
    simp [enigmaMain, h1] at hcomp
  · by_cases h2 : (write_run_scripts fs (pjoin a.output_dir "bin")
        a.output_dir a.tempDir a.calcMD a.calcALL
        ["run_engimadti.sh", "concatresults.sh"]).2 = true
    · by_cases h3 : a.postOnly = true
      · constructor
        · intro hne
          exfalso
          apply hne
          simp [enigmaMain, h1, h2, h3]
        · intro _
          simp [enigmaMain, h1, h2, h3, submittedJobs,
            filterMap_jobOf_write_run_scripts,
            apply_ite (List.filterMap jobOf)]
      · by_cases hb : (buildBatch fs a.subject_filter a.output_dir
            a.input_dir (pjoin a.output_dir "bin") "run_engimadti.sh"
            a.today a.checklist).1 = []
        · constructor
          · intro hne
            exfalso
            apply hne
            simp [enigmaMain, h1, h2, h3, hb]
          · intro _
            simp [enigmaMain, h1, h2, h3, hb, submittedJobs,
              filterMap_jobOf_write_run_scripts,
              apply_ite (List.filterMap jobOf)]
        · constructor
          · intro _
            simp [enigmaMain, h1, h2, h3, hb, hdry, submittedJobs,
              filterMap_jobOf_write_run_scripts, runEffect,
              apply_ite (List.filterMap jobOf)]
          · intro hcontra
            exfalso
            apply hb
            simpa [enigmaMain, h1, h2, h3] using hcontra
    · exfalso
      simp [enigmaMain, h1, h2] at hcomp

/-- Witness for C4: a run with one unprocessed subject submits exactly the
array job and its dependent `_post` job; idle inputs aside, the empty-batch
side is covered by the C3 witness inputs. -/
theorem C4_jobs_iff_batch_nonempty_witness :
    submittedJobs (enigmaMain []
      ⟨false, false, false, false, false, none, "2:00:00", "3:00:00", "tmp",
        "2020-01-01", "20200101-000000", "STU", "in", "out",
        ["STU_ABC_0001_01"],
        [⟨"STU_ABC_0001_01", some "STU_ABC_0001_01_FA.nii.gz", none⟩]⟩).trace
      =
      [.fileBatch "tmp/commands.txt" "edtiSTU_20200101-000000" "out/logs"
          "2:00:00",
       .piped "echo bash -l out/bin/concatresults.sh"
          "edtiSTU_20200101-000000_post" "out/logs" "3:00:00"
          "edtiSTU_20200101-000000"] :=
  (C4_jobs_iff_batch_nonempty []
      ⟨false, false, false, false, false, none, "2:00:00", "3:00:00", "tmp",
        "2020-01-01", "20200101-000000", "STU", "in", "out",
        ["STU_ABC_0001_01"],
        [⟨"STU_ABC_0001_01", some "STU_ABC_0001_01_FA.nii.gz", none⟩]⟩
      rfl (by decide)).1 (by decide)

/-! ## C5: what dry-run does and does not suppress -/

/-- C5 (amended): with the dry-run flag set, no job is handed to the queue
(both `dm.utils.run` calls log and skip) and the checklist file is not
rewritten; the run-script writes, directory creation and the temporary
batch-file write are *not* suppressed. -/
theorem C5_dry_run_suppresses_submission_and_checklist_only
    (fs : List (String × String)) (a : MainArgs) (h : a.dryRun = true) :
    submittedJobs (enigmaMain fs a).trace = []
  ∧ (enigmaMain fs a).trace.any isChecklistWrite = false := by
  by_cases h1 : a.subjects.length = 0
  · constructor <;> simp [enigmaMain, h1, submittedJobs]
  · by_cases h2 : (write_run_scripts fs (pjoin a.output_dir "bin")
        a.output_dir a.tempDir a.calcMD a.calcALL
        ["run_engimadti.sh", "concatresults.sh"]).2 = true
    · by_cases h3 : a.postOnly = true
      · constructor
        · simp [enigmaMain, h1, h2, h3, h, submittedJobs,
            filterMap_jobOf_write_run_scripts]
        · simp [enigmaMain, h1, h2, h3, h,
            no_checklistWrite_write_run_scripts]
      · constructor
        · simp [enigmaMain, h1, h2, h3, h, submittedJobs, runEffect,
            filterMap_jobOf_write_run_scripts,
            apply_ite (List.filterMap jobOf)]
        · simp [enigmaMain, h1, h2, h3, h, runEffect,
            no_checklistWrite_write_run_scripts,
            apply_ite (List.any · isChecklistWrite)]
    · constructor
      · simp [enigmaMain, h1, h2, submittedJobs,
          filterMap_jobOf_write_run_scripts]
      · simp [enigmaMain, h1, h2, no_checklistWrite_write_run_scripts]

/-- Witness for C5 (amended): a dry run over a fresh output tree submits
nothing and does not write the checklist. -/
theorem C5_dry_run_suppresses_submission_and_checklist_only_witness :
    submittedJobs (enigmaMain []
      ⟨false, false, true, false, false, none, "2:00:00", "2:00:00", "tmp",
        "2020-01-01", "20200101-000000", "STU", "in", "out",
        ["STU_ABC_0001_01"],
        [⟨"STU_ABC_0001_01", some "STU_ABC_0001_01_FA.nii.gz", none⟩]⟩).trace
      = [] :=
  (C5_dry_run_suppresses_submission_and_checklist_only []
      ⟨false, false, true, false, false, none, "2:00:00", "2:00:00", "tmp",
        "2020-01-01", "20200101-000000", "STU", "in", "out",
        ["STU_ABC_0001_01"],
        [⟨"STU_ABC_0001_01", some "STU_ABC_0001_01_FA.nii.gz", none⟩]⟩
      rfl).1

/-- Counterexample to C5 as stated: a dry run over a fresh output tree still
persists both run scripts to disk — `write_run_scripts` is called
unconditionally, so "every mutating operation, including the run-script
writes, is replaced with a logged no-op" fails. -/
theorem C5_counterexample_dry_run_still_writes_run_scripts :
    persistentWrites (enigmaMain []
      ⟨false, false, true, false, false, none, "2:00:00", "2:00:00", "tmp",
        "2020-01-01", "20200101-000000", "STU", "in", "out",
        ["STU_ABC_0001_01"],
        [⟨"STU_ABC_0001_01", some "STU_ABC_0001_01_FA.nii.gz", none⟩]⟩).trace
      = ["out/bin/run_engimadti.sh", "out/bin/concatresults.sh"] := by
  rfl

/-! ## Lemmas on dictionaries of lists (for `get_subject_metadata`) -/

theorem dictGet?_appendAt (d : List (String × List String)) (k0 v k : String) :
    dictGet? (appendAt d k0 v) k =
      (dictGet? d k).map (fun l => if k = k0 then l ++ [v] else l) := by
  induction d with
  | nil => simp [appendAt, dictGet?]
  | cons kv rest ih =>
    obtain ⟨kh, lh⟩ := kv
    by_cases h2 : kh = k0
    · subst h2
      by_cases h1 : kh = k
      · subst h1
        simp [appendAt, dictGet?]
      · simp only [appendAt, if_pos rfl, dictGet?, if_neg h1]
        exact ih
    · by_cases h1 : kh = k
      · subst h1
        simp [appendAt, dictGet?, h2, fun hc : kh = k0 => h2 hc]
      · simp only [appendAt, if_neg h2, dictGet?, if_neg h1]
        exact ih

theorem dictKeys_appendAt (d : List (String × List String)) (k0 v : String) :
    dictKeys (appendAt d k0 v) = dictKeys d := by
  induction d with
  | nil => rfl
  | cons kv rest ih =>
    obtain ⟨kh, lh⟩ := kv
    by_cases h : kh = k0
    · rw [show appendAt ((kh, lh) :: rest) k0 v =
          (kh, lh ++ [v]) :: appendAt rest k0 v by simp [appendAt, h]]
      simpa [dictKeys] using ih
    · rw [show appendAt ((kh, lh) :: rest) k0 v =
          (kh, lh) :: appendAt rest k0 v by simp [appendAt, h]]
      simpa [dictKeys] using ih

theorem dictHas_iff_mem_keys {α : Type} (d : List (String × α)) (k : String) :
    dictHas d k = true ↔ k ∈ dictKeys d := by
  induction d with
  | nil => simp [dictHas, dictGet?, dictKeys]
  | cons kv rest ih =>
    by_cases h : kv.1 = k
    · simp [dictHas, dictGet?, dictKeys, h]
    · simp only [dictHas, dictGet?, if_neg h, dictKeys, List.map_cons,
        List.mem_cons] at ih ⊢
      constructor
      · intro hmem
        exact Or.inr (ih.mp hmem)
      · intro hor
        rcases hor with h' | h'
        · exact absurd h'.symm h
        · exact ih.mpr h'

theorem get_subject_metadata_eq_fold (checklist blacklist :
    List (String × String)) :
    get_subject_metadata checklist blacklist =
      blacklist.foldl gsmStep
        (checklist.filterMap
          (fun kv => if kv.2 ≠ "" then some (kv.1, ([] : List String))
            else none)) := by
  unfold get_subject_metadata gsmStep
  rfl

theorem dictKeys_gsmFold (blacklist : List (String × String)) :
    ∀ acc, dictKeys (blacklist.foldl gsmStep acc) = dictKeys acc := by
  induction blacklist with
  | nil => intro acc; rfl
  | cons kv rest ih =>
    intro acc
    rw [List.foldl_cons, ih]
    unfold gsmStep
    split
    · rfl
    · split
      · exact dictKeys_appendAt _ _ _
      · rfl

theorem gsmFold_mono (blacklist : List (String × String)) :
    ∀ acc k l, dictGet? acc k = some l →
      ∃ l', dictGet? (blacklist.foldl gsmStep acc) k = some l' ∧ l ⊆ l' := by
  induction blacklist with
  | nil => intro acc k l h; exact ⟨l, h, List.Subset.refl l⟩
  | cons kv rest ih =>
    intro acc k l h
    rw [List.foldl_cons]
    have hstep : ∃ l₁, dictGet? (gsmStep acc kv) k = some l₁ ∧ l ⊆ l₁ := by
      unfold gsmStep
      split
      · exact ⟨l, h, List.Subset.refl l⟩
      · split
        · rename_i ident tag series desc heq hhas
          refine ⟨if k = scanid.fullSubjectIdWithTimepoint ident then
            l ++ [kv.1] else l, ?_, ?_⟩
          · rw [dictGet?_appendAt, h]
            rfl
          · split
            · exact List.subset_append_left _ _
            · exact List.Subset.refl l
        · exact ⟨l, h, List.Subset.refl l⟩
    obtain ⟨l₁, h₁, hsub₁⟩ := hstep
    obtain ⟨l₂, h₂, hsub₂⟩ := ih (gsmStep acc kv) k l₁ h₁
    exact ⟨l₂, h₂, List.Subset.trans hsub₁ hsub₂⟩

theorem gsmFold_adds_entry (blacklist : List (String × String)) :
    ∀ acc kv, kv ∈ blacklist →
      ∀ ident tag series desc,
        scanid.parse_filename kv.1 = some (ident, tag, series, desc) →
        dictHas acc (scanid.fullSubjectIdWithTimepoint ident) = true →
        ∃ l, dictGet? (blacklist.foldl gsmStep acc)
            (scanid.fullSubjectIdWithTimepoint ident) = some l ∧
          kv.1 ∈ l := by
  induction blacklist with
  | nil => intro acc kv h; simp at h
  | cons kv0 rest ih =>
    intro acc kv hmem ident tag series desc hparse hhas
    rcases List.mem_cons.mp hmem with heq | hmem'
    · subst heq
      rw [List.foldl_cons]
      have hsome := (Option.isSome_iff_exists.mp hhas)
      obtain ⟨l0, hl0⟩ := hsome
      have hstep : dictGet? (gsmStep acc kv)
          (scanid.fullSubjectIdWithTimepoint ident) = some (l0 ++ [kv.1]) := by
        unfold gsmStep
        rw [hparse]
        simp only [hhas, if_true]
        rw [dictGet?_appendAt, hl0]
        simp
      obtain ⟨l', h', hsub⟩ := gsmFold_mono rest (gsmStep acc kv) _ _ hstep
      exact ⟨l', h', hsub (List.mem_append_right l0 (List.mem_singleton.mpr
        rfl))⟩
    · rw [List.foldl_cons]
      apply ih (gsmStep acc kv0) kv hmem' ident tag series desc hparse
      have hk : dictHas (gsmStep acc kv0)
            (scanid.fullSubjectIdWithTimepoint ident) = true := by
        rw [dictHas_iff_mem_keys] at hhas ⊢
        have : dictKeys (gsmStep acc kv0) = dictKeys acc := by
          have := dictKeys_gsmFold [kv0] acc
          simpa using this
        rw [this]
        exact hhas
      exact hk

theorem gsmFold_provenance (blacklist full : List (String × String))
    (hsub : ∀ kv ∈ blacklist, kv ∈ full) :
    ∀ acc,
      (∀ k l, dictGet? acc k = some l → ∀ b ∈ l,
        ∃ c, (b, c) ∈ full ∧ ∃ ident tag series desc,
          scanid.parse_filename b = some (ident, tag, series, desc) ∧
          scanid.fullSubjectIdWithTimepoint ident = k) →
      ∀ k l, dictGet? (blacklist.foldl gsmStep acc) k = some l → ∀ b ∈ l,
        ∃ c, (b, c) ∈ full ∧ ∃ ident tag series desc,
          scanid.parse_filename b = some (ident, tag, series, desc) ∧
          scanid.fullSubjectIdWithTimepoint ident = k := by
  induction blacklist with
  | nil => intro acc hacc; exact hacc
  | cons kv rest ih =>
    intro acc hacc
    rw [List.foldl_cons]
    apply ih (fun kv' h' => hsub kv' (List.mem_cons_of_mem _ h'))
    intro k l hget b hb
    unfold gsmStep at hget
    split at hget
    · exact hacc k l hget b hb
    · rename_i ident tag series desc hparse
      split at hget
      · rw [dictGet?_appendAt] at hget
        rcases hopt : dictGet? acc k with _ | l0
        · rw [hopt] at hget; simp at hget
        · rw [hopt] at hget
          have hget' : (if k = scanid.fullSubjectIdWithTimepoint ident then
              l0 ++ [kv.1] else l0) = l := by simpa using hget
          subst hget' 
          by_cases hk : k = scanid.fullSubjectIdWithTimepoint ident
          · rw [if_pos hk] at hb
            rcases List.mem_append.mp hb with hb' | hb'
            · exact hacc k l0 hopt b hb'
            · rw [List.mem_singleton] at hb'
              subst hb'
              exact ⟨kv.2, hsub kv (List.mem_cons_self _ _),
                ident, tag, series, desc, hparse, hk.symm⟩
          · rw [if_neg hk] at hb
            exact hacc k l0 hopt b hb
      · exact hacc k l hget b hb

theorem dictGet?_signedOff_nil (checklist : List (String × String)) :
    ∀ k l, dictGet? (checklist.filterMap
        (fun kv => if kv.2 ≠ "" then some (kv.1, ([] : List String))
          else none)) k = some l → l = [] := by
  induction checklist with
  | nil => intro k l h; simp [dictGet?] at h
  | cons kv rest ih =>
    intro k l h
    by_cases hc : kv.2 = ""
    · simp only [List.filterMap_cons, hc, ne_eq, not_true_eq_false,
        if_false] at h
      exact ih k l h
    · simp only [List.filterMap_cons, hc, ne_eq, not_false_eq_true,
        if_true] at h
      by_cases hk : kv.1 = k
      · simp [dictGet?, hk] at h
        exact h
      · simp only [dictGet?, hk, if_false] at h
        exact ih k l h

theorem dictKeys_signedOff (checklist : List (String × String)) :
    dictKeys (checklist.filterMap
        (fun kv => if kv.2 ≠ "" then some (kv.1, ([] : List String))
          else none)) =
      (checklist.filter (fun kv => kv.2 ≠ "")).map Prod.fst := by
  induction checklist with
  | nil => rfl
  | cons kv rest ih =>
    by_cases hc : kv.2 = "" <;>
      simp [List.filterMap_cons, List.filter_cons, hc, dictKeys] at ih ⊢ <;>
      exact ih

/-- C7: the keys of `get_subject_metadata`'s result are exactly the
checklist subjects with a non-empty (signed-off) comment; every well-formed
blacklist entry whose subject is one of those keys lands in that key's
list; and every element of every list comes from a blacklist entry whose
parsed subject is that key — an orphaned blacklist entry never adds a key
and appears in no list. -/
theorem C7_subject_metadata_aggregation (checklist blacklist :
    List (String × String)) :
    (dictKeys (get_subject_metadata checklist blacklist) =
      (checklist.filter (fun kv => kv.2 ≠ "")).map Prod.fst)
  ∧ (∀ kv ∈ blacklist, ∀ ident tag series desc,
      scanid.parse_filename kv.1 = some (ident, tag, series, desc) →
      dictHas (get_subject_metadata checklist blacklist)
          (scanid.fullSubjectIdWithTimepoint ident) = true →
      ∃ l, dictGet? (get_subject_metadata checklist blacklist)
          (scanid.fullSubjectIdWithTimepoint ident) = some l ∧ kv.1 ∈ l)
  ∧ (∀ k l, dictGet? (get_subject_metadata checklist blacklist) k = some l →
      ∀ b ∈ l, ∃ c, (b, c) ∈ blacklist ∧ ∃ ident tag series desc,
        scanid.parse_filename b = some (ident, tag, series, desc) ∧
        scanid.fullSubjectIdWithTimepoint ident = k) := by
  refine ⟨?_, ?_, ?_⟩
  · rw [get_subject_metadata_eq_fold, dictKeys_gsmFold]
    exact dictKeys_signedOff checklist
  · intro kv hmem ident tag series desc hparse hhas
    rw [get_subject_metadata_eq_fold] at hhas ⊢
    apply gsmFold_adds_entry blacklist _ kv hmem ident tag series desc hparse
    rw [dictHas_iff_mem_keys] at hhas ⊢
    rwa [dictKeys_gsmFold] at hhas
  · rw [get_subject_metadata_eq_fold]
    apply gsmFold_provenance blacklist blacklist (fun kv h => h)
    intro k l hget b hb
    have := dictGet?_signedOff_nil checklist k l hget
    subst this
    simp at hb

/-- Witness for C7: the specification's own scenario, in the modelled
grammar — a signed-off subject with one blacklisted scan and an orphaned
blacklist entry for a subject absent from the checklist. -/
theorem C7_subject_metadata_aggregation_witness :
    (dictKeys (get_subject_metadata
        [("STU_ABC_0001_01", "reviewed by X"), ("STU_ABC_0002_01", "")]
        [("STU_ABC_0001_01_01_T1_01_desc", "good"),
         ("STU_ABC_0009_01_01_T1_01_desc", "orphan")]) = ["STU_ABC_0001_01"])
  ∧ (∃ l, dictGet? (get_subject_metadata
        [("STU_ABC_0001_01", "reviewed by X"), ("STU_ABC_0002_01", "")]
        [("STU_ABC_0001_01_01_T1_01_desc", "good"),
         ("STU_ABC_0009_01_01_T1_01_desc", "orphan")]) "STU_ABC_0001_01" =
        some l ∧ "STU_ABC_0001_01_01_T1_01_desc" ∈ l) := by
  constructor
  · exact (C7_subject_metadata_aggregation _ _).1.trans (by decide)
  · exact (C7_subject_metadata_aggregation _ _).2.1
      ("STU_ABC_0001_01_01_T1_01_desc", "good") (by decide)
      ⟨"STU", "ABC", "0001", "01", some "01"⟩ "T1" "01" "desc" (by decide)
      (by decide)

/-! ## Character-level lemmas for the metadata round-trips -/

theorem dropWhile_append_eq {α : Type} [DecidableEq α] (p : α → Bool)
    (xs ys : List α) :
    (xs ++ ys).dropWhile p =
      if xs.dropWhile p = [] then ys.dropWhile p else xs.dropWhile p ++ ys := by
  induction xs with
  | nil => simp
  | cons a xs ih =>
    by_cases h : p a
    · simpa [List.dropWhile_cons, h] using ih
    · simp [List.dropWhile_cons, h]

theorem dropWhile_eq_self_of_head {α : Type} (p : α → Bool) (a : α)
    (l : List α) (h : p a = false) : (a :: l).dropWhile p = a :: l := by
  simp [List.dropWhile_cons, h]

theorem mem_of_mem_dropWhile {α : Type} (p : α → Bool) (l : List α) :
    ∀ x ∈ l.dropWhile p, x ∈ l := by
  induction l with
  | nil => simp
  | cons a l ih =>
    intro x hx
    by_cases h : p a
    · rw [List.dropWhile_cons_of_pos h] at hx
      exact List.mem_cons_of_mem _ (ih x hx)
    · rw [List.dropWhile_cons_of_neg (by simpa using h)] at hx
      exact hx

theorem mem_of_mem_pyStripRight (l : List Char) :
    ∀ c ∈ pyStripRight l, c ∈ l := by
  intro c hc
  unfold pyStripRight at hc
  rw [List.mem_reverse] at hc
  have := mem_of_mem_dropWhile wsChar l.reverse c hc
  rwa [List.mem_reverse] at this

theorem mem_of_mem_pyStrip (l : List Char) : ∀ c ∈ pyStrip l, c ∈ l := by
  intro c hc
  unfold pyStrip at hc
  rw [List.mem_reverse] at hc
  have h1 := mem_of_mem_dropWhile wsChar (l.dropWhile wsChar).reverse c hc
  rw [List.mem_reverse] at h1
  exact mem_of_mem_dropWhile wsChar l c h1

theorem pyStripRight_append (l m : List Char) :
    pyStripRight (l ++ m) =
      if pyStripRight m = [] then pyStripRight l else l ++ pyStripRight m := by
  unfold pyStripRight
  rw [List.reverse_append, dropWhile_append_eq]
  by_cases h : m.reverse.dropWhile wsChar = []
  · simp [h]
  · simp only [h, if_false]
    rw [List.reverse_append]
    simp only [List.reverse_reverse]
    have : (m.reverse.dropWhile wsChar).reverse = [] ↔
        m.reverse.dropWhile wsChar = [] := by simp
    rw [if_neg (fun hc => h (this.mp hc))]

theorem pyStrip_cons_of_head (c : Char) (l : List Char)
    (h : wsChar c = false) : pyStrip (c :: l) = pyStripRight (c :: l) := by
  unfold pyStrip pyStripRight
  rw [dropWhile_eq_self_of_head _ _ _ h]

/-- A list that starts and ends with a non-whitespace character is fixed by
`pyStrip`. -/
theorem pyStrip_eq_self (l : List Char) (h1 : ∀ c, l.head? = some c →
    wsChar c = false) (h2 : ∀ c, l.getLast? = some c → wsChar c = false) :
    pyStrip l = l := by
  cases l with
  | nil => rfl
  | cons a l =>
    rw [pyStrip_cons_of_head _ _ (h1 a rfl)]
    unfold pyStripRight
    cases hlast : (a :: l).getLast? with
    | none => simp at hlast
    | some b =>
      have hb := h2 b hlast
      have : (a :: l).reverse.head? = some b := by
        rwa [List.head?_reverse]
      cases hrev : (a :: l).reverse with
      | nil => simp [hrev] at this
      | cons x xs =>
        rw [hrev] at this
        simp only [List.head?_cons, Option.some.injEq] at this
        subst this
        rw [dropWhile_eq_self_of_head _ _ _ hb, ← hrev,
          List.reverse_reverse]

theorem head?_dropWhile_neg {α : Type} (p : α → Bool) (l : List α) :
    ∀ a, (l.dropWhile p).head? = some a → p a = false := by
  induction l with
  | nil => intro a ha; simp at ha
  | cons x xs ih =>
    intro a ha
    by_cases h : p x
    · rw [List.dropWhile_cons_of_pos h] at ha
      exact ih a ha
    · rw [List.dropWhile_cons_of_neg (by simpa using h)] at ha
      simp only [List.head?_cons, Option.some.injEq] at ha
      subst ha
      simpa using h

theorem pyStripRight_pyStrip (l : List Char) :
    pyStripRight (pyStrip l) = pyStrip l := by
  unfold pyStrip pyStripRight
  rw [List.reverse_reverse]
  cases h : (l.dropWhile wsChar).reverse.dropWhile wsChar with
  | nil => simp
  | cons a as =>
    have ha : wsChar a = false :=
      head?_dropWhile_neg wsChar (l.dropWhile wsChar).reverse a
        (by rw [h]; rfl)
    rw [dropWhile_eq_self_of_head _ _ _ ha]

/-! Lemmas about `splitOnP`. -/

theorem splitOnP_ne_nil (p : Char → Bool) (l : List Char) :
    splitOnP p l ≠ [] := by
  cases l with
  | nil => simp [splitOnP]
  | cons c rest =>
    by_cases h : p c
    · simp [splitOnP, h]
    · simp only [splitOnP, h, if_false, Bool.false_eq_true]
      split <;> simp

theorem splitOnP_sepFree (p : Char → Bool) (l : List Char)
    (h : ∀ c ∈ l, p c = false) : splitOnP p l = [l] := by
  induction l with
  | nil => rfl
  | cons c rest ih =>
    have hc : p c = false := h c (List.mem_cons_self _ _)
    have hrest := ih (fun c' hc' => h c' (List.mem_cons_of_mem _ hc'))
    simp only [splitOnP, hc, Bool.false_eq_true, if_false, hrest]

theorem splitOnP_append_sepFree (p : Char → Bool) (l m : List Char)
    (h : ∀ c ∈ l, p c = false) :
    ∀ t ts, splitOnP p m = t :: ts →
      splitOnP p (l ++ m) = (l ++ t) :: ts := by
  induction l with
  | nil => intro t ts hm; simpa using hm
  | cons c rest ih =>
    intro t ts hm
    have hc : p c = false := h c (List.mem_cons_self _ _)
    have hrest := ih (fun c' hc' => h c' (List.mem_cons_of_mem _ hc')) t ts hm
    simp only [List.cons_append, splitOnP, hc, Bool.false_eq_true, if_false,
      List.append_eq]
    rw [hrest]

theorem splitOnP_congr (p q : Char → Bool) (l : List Char)
    (h : ∀ c ∈ l, p c = q c) : splitOnP p l = splitOnP q l := by
  induction l with
  | nil => rfl
  | cons c rest ih =>
    have hc := h c (List.mem_cons_self _ _)
    have hrest := ih (fun c' hc' => h c' (List.mem_cons_of_mem _ hc'))
    simp only [splitOnP, hc, hrest]

theorem splitOnP_parts_sepFree (p : Char → Bool) (l : List Char) :
    ∀ part ∈ splitOnP p l, ∀ c ∈ part, p c = false ∧ c ∈ l := by
  induction l with
  | nil =>
    intro part hpart c hc
    simp [splitOnP] at hpart
    subst hpart
    simp at hc
  | cons a rest ih =>
    intro part hpart c hc
    by_cases ha : p a
    · simp only [splitOnP, ha, if_true, List.mem_cons] at hpart
      rcases hpart with h | h
      · subst h; simp at hc
      · obtain ⟨hp, hmem⟩ := ih part h c hc
        exact ⟨hp, List.mem_cons_of_mem _ hmem⟩
    · simp only [splitOnP, ha, Bool.false_eq_true, if_false] at hpart
      rcases hrec : splitOnP p rest with _ | ⟨t, ts⟩
      · exact absurd hrec (splitOnP_ne_nil p rest)
      · rw [hrec] at hpart
        have hmem_t : t ∈ splitOnP p rest := by
          rw [hrec]
          exact List.mem_cons_self _ _
        rcases List.mem_cons.mp hpart with h | h
        · subst h
          rcases List.mem_cons.mp hc with h' | h'
          · subst h'
            exact ⟨by simpa using ha, List.mem_cons_self _ _⟩
          · obtain ⟨hp, hmem⟩ := ih t hmem_t c h'
            exact ⟨hp, List.mem_cons_of_mem _ hmem⟩
        · have hmem_part : part ∈ splitOnP p rest := by
            rw [hrec]
            exact List.mem_cons_of_mem _ h
          obtain ⟨hp, hmem⟩ := ih part hmem_part c hc
          exact ⟨hp, List.mem_cons_of_mem _ hmem⟩

/-! Lemmas about `List.intercalate` and the split/join inverse. -/

theorem intercalate_cons_cons {α : Type} (sep x y : List α)
    (ts : List (List α)) :
    List.intercalate sep (x :: y :: ts) =
      x ++ sep ++ List.intercalate sep (y :: ts) := by
  simp [List.intercalate, List.intersperse]

theorem intercalate_single {α : Type} (sep x : List α) :
    List.intercalate sep [x] = x := by
  simp [List.intercalate, List.intersperse]

theorem intercalate_splitOnP (c : Char) (l : List Char) :
    List.intercalate [c] (splitOnP (· = c) l) = l := by
  induction l with
  | nil => simp [splitOnP, List.intercalate]
  | cons a rest ih =>
    by_cases h : a = c
    · subst h
      rcases hrec : splitOnP (· = a) rest with _ | ⟨t, ts⟩
      · exact absurd hrec (splitOnP_ne_nil _ rest)
      · rw [hrec] at ih
        have hstep : splitOnP (· = a) (a :: rest) = [] :: t :: ts := by
          simp [splitOnP, hrec]
        rw [hstep, intercalate_cons_cons, ih]
        rfl
    · rcases hrec : splitOnP (· = c) rest with _ | ⟨t, ts⟩
      · exact absurd hrec (splitOnP_ne_nil _ rest)
      · rw [hrec] at ih
        have hstep : splitOnP (· = c) (a :: rest) = (a :: t) :: ts := by
          simp [splitOnP, h, hrec]
        rw [hstep]
        cases ts with
        | nil =>
          rw [intercalate_single] at ih ⊢
          rw [ih]
        | cons t' ts' =>
          rw [intercalate_cons_cons] at ih ⊢
          simpa using congrArg (fun x => a :: x) ih

theorem mem_intercalate {α : Type} (sep : List α) :
    ∀ ts (c : α), c ∈ List.intercalate sep ts →
      (∃ t ∈ ts, c ∈ t) ∨ c ∈ sep := by
  intro ts
  induction ts with
  | nil => intro c hc; simp [List.intercalate] at hc
  | cons t rest ih =>
    intro c hc
    cases rest with
    | nil =>
      rw [intercalate_single] at hc
      exact Or.inl ⟨t, List.mem_cons_self _ _, hc⟩
    | cons t' rest' =>
      rw [intercalate_cons_cons] at hc
      rcases List.mem_append.mp hc with h | h
      · rcases List.mem_append.mp h with h' | h'
        · exact Or.inl ⟨t, List.mem_cons_self _ _, h'⟩
        · exact Or.inr h'
      · rcases ih c h with ⟨u, hu, hcu⟩ | h'
        · exact Or.inl ⟨u, List.mem_cons_of_mem _ hu, hcu⟩
        · exact Or.inr h'

/-! Lemmas about `pyTokens`. -/

theorem pyTokensAux_token_front (t : List Char)
    (h : ∀ c ∈ t, wsChar c = false) :
    ∀ cur l, pyTokensAux cur (t ++ l) = pyTokensAux (t.reverse ++ cur) l := by
  induction t with
  | nil => intro cur l; simp
  | cons c t' ih =>
    intro cur l
    have hc : wsChar c = false := h c (List.mem_cons_self _ _)
    have ih' := ih (fun c' hc' => h c' (List.mem_cons_of_mem _ hc'))
    simp only [List.cons_append, pyTokensAux, hc, Bool.false_eq_true,
      if_false, List.append_eq]
    rw [ih' (c :: cur) l]
    simp

theorem pyTokens_token_cons (t : List Char) (ht : t ≠ [])
    (h : ∀ c ∈ t, wsChar c = false) (c : Char) (hc : wsChar c = true)
    (w : List Char) : pyTokens (t ++ c :: w) = t :: pyTokens w := by
  unfold pyTokens
  rw [pyTokensAux_token_front t h [] (c :: w)]
  simp only [List.append_nil, pyTokensAux, hc, if_true]
  rw [if_neg (by simpa using ht)]
  simp

theorem pyTokens_token (t : List Char) (ht : t ≠ [])
    (h : ∀ c ∈ t, wsChar c = false) : pyTokens t = [t] := by
  unfold pyTokens
  have := pyTokensAux_token_front t h [] []
  rw [List.append_nil] at this
  rw [this]
  simp only [pyTokensAux, List.append_nil]
  rw [if_neg (by simpa using ht)]
  simp

theorem pyTokensAux_trailing_ws (c : Char) (hc : wsChar c = true) :
    ∀ l cur, pyTokensAux cur (l ++ [c]) = pyTokensAux cur l := by
  intro l
  induction l with
  | nil =>
    intro cur
    simp [pyTokensAux, hc]
  | cons a l' ih =>
    intro cur
    by_cases ha : wsChar a
    · simp only [List.cons_append, pyTokensAux, ha, if_true, List.append_eq]
      rw [ih []]
    · simp only [List.cons_append, pyTokensAux, ha, Bool.false_eq_true,
        if_false, List.append_eq]
      exact ih (a :: cur)

theorem pyTokens_intercalate (ts : List (List Char))
    (h : ∀ t ∈ ts, t ≠ [] ∧ ∀ c ∈ t, wsChar c = false) :
    pyTokens (List.intercalate [' '] ts) = ts := by
  induction ts with
  | nil => simp [List.intercalate, pyTokens, pyTokensAux]
  | cons t rest ih =>
    obtain ⟨ht, hchars⟩ := h t (List.mem_cons_self _ _)
    cases rest with
    | nil =>
      rw [intercalate_single]
      exact pyTokens_token t ht hchars
    | cons t' rest' =>
      rw [intercalate_cons_cons, List.append_assoc, List.singleton_append]
      rw [pyTokens_token_cons t ht hchars ' ' (by decide) _]
      rw [ih (fun u hu => h u (List.mem_cons_of_mem _ hu))]

theorem pyTokensAux_wf :
    ∀ (l cur : List Char), (∀ c ∈ cur, wsChar c = false) →
      ∀ t ∈ pyTokensAux cur l, t ≠ [] ∧ ∀ c ∈ t, wsChar c = false := by
  intro l
  induction l with
  | nil =>
    intro cur hcur t ht
    simp only [pyTokensAux] at ht
    split at ht
    · simp at ht
    · rename_i hne
      simp only [List.mem_singleton] at ht
      subst ht
      refine ⟨by simpa using hne, ?_⟩
      intro c hcmem
      exact hcur c (by simpa using hcmem)
  | cons a l' ih =>
    intro cur hcur t ht
    by_cases ha : wsChar a
    · simp only [pyTokensAux, ha, if_true] at ht
      split at ht
      · exact ih [] (by simp) t ht
      · rename_i hne
        rcases List.mem_cons.mp ht with h' | h'
        · subst h'
          refine ⟨by simpa using hne, ?_⟩
          intro c hcmem
          exact hcur c (by simpa using hcmem)
        · exact ih [] (by simp) t h'
    · simp only [pyTokensAux, ha, Bool.false_eq_true, if_false] at ht
      refine ih (a :: cur) ?_ t ht
      intro c hcmem
      rcases List.mem_cons.mp hcmem with h' | h'
      · subst h'; simpa using ha
      · exact hcur c h'

/-! Lemmas about `listReplace`. -/

theorem isPrefixOf_append_self (pat l : List Char) :
    pat.isPrefixOf (pat ++ l) = true := by
  induction pat with
  | nil => simp [List.isPrefixOf]
  | cons c pat ih => simp [List.isPrefixOf, ih]

theorem listReplaceF_no_occ (pat rep : List Char) :
    ∀ fuel l, hasInfix pat l = false → listReplaceF pat rep fuel l = l := by
  intro fuel
  induction fuel with
  | zero => intro l _; rfl
  | succ f ih =>
    intro l h
    cases l with
    | nil => rfl
    | cons c rest =>
      simp only [hasInfix, Bool.or_eq_false_iff] at h
      obtain ⟨h1, h2⟩ := h
      simp only [listReplaceF, h1, Bool.and_false, Bool.false_eq_true,
        if_false]
      rw [ih rest h2]

theorem listReplace_no_occ (pat rep l : List Char)
    (h : hasInfix pat l = false) : listReplace pat rep l = l :=
  listReplaceF_no_occ pat rep l.length l h

theorem listReplace_strip_leading (pat rep l : List Char) (hne : pat ≠ [])
    (h : hasInfix pat l = false) :
    listReplace pat rep (pat ++ l) = rep ++ l := by
  unfold listReplace
  cases pat with
  | nil => exact absurd rfl hne
  | cons p ps =>
    have hlen : ((p :: ps) ++ l).length = ((ps ++ l).length) + 1 := by simp
    rw [hlen]
    have hpre : (p :: ps).isPrefixOf ((p :: ps) ++ l) = true :=
      isPrefixOf_append_self (p :: ps) l
    have hdrop : List.drop (p :: ps).length (p :: (ps ++ l)) = l := by
      simpa using List.drop_left ps l
    rw [List.cons_append] at hpre
    simp only [listReplaceF, List.append_eq, List.cons_append,
      List.isEmpty_cons, Bool.not_false, Bool.and_true, Bool.true_and]
    rw [if_pos hpre, hdrop]
    rw [listReplaceF_no_occ (p :: ps) rep _ l h]

/-! Further dictionary lemmas. -/

theorem dictGet?_dictInsert {α : Type} (d : List (String × α))
    (k : String) (v : α) (k' : String) :
    dictGet? (dictInsert d k v) k' =
      if k = k' then some v else dictGet? d k' := by
  induction d with
  | nil =>
    by_cases h : k = k' <;> simp [dictInsert, dictGet?, h]
  | cons kv rest ih =>
    obtain ⟨kh, vh⟩ := kv
    by_cases h1 : kh = k
    · subst h1
      by_cases h2 : kh = k' <;> simp [dictInsert, dictGet?, h2]
    · by_cases h2 : kh = k'
      · subst h2
        have hkk' : ¬ k = kh := fun hc => h1 hc.symm
        simp [dictInsert, dictGet?, h1, hkk']
      · simp only [dictInsert, if_neg h1, dictGet?, if_neg h2]
        exact ih

theorem dictGet?_some_mem {α : Type} (d : List (String × α)) (k : String)
    (v : α) (h : dictGet? d k = some v) : (k, v) ∈ d := by
  induction d with
  | nil => simp [dictGet?] at h
  | cons kv rest ih =>
    by_cases hk : kv.1 = k
    · simp only [dictGet?, if_pos hk, Option.some.injEq] at h
      subst h
      subst hk
      exact List.mem_cons_self _ _
    · simp only [dictGet?, if_neg hk] at h
      exact List.mem_cons_of_mem _ (ih h)

theorem dictGet?_eq_none_iff {α : Type} (d : List (String × α)) (k : String) :
    dictGet? d k = none ↔ k ∉ dictKeys d := by
  induction d with
  | nil => simp [dictGet?, dictKeys]
  | cons kv rest ih =>
    by_cases hk : kv.1 = k
    · simp [dictGet?, dictKeys, hk]
    · simp only [dictGet?, if_neg hk, dictKeys, List.map_cons,
        List.mem_cons] at ih ⊢
      constructor
      · intro h hc
        rcases hc with h' | h'
        · exact hk h'.symm
        · exact (ih.mp h) h'
      · intro h
        exact ih.mpr (fun hc => h (Or.inr hc))

theorem mem_dictGet?_of_nodup {α : Type} (d : List (String × α)) (k : String)
    (v : α) (hnodup : (dictKeys d).Nodup) (hmem : (k, v) ∈ d) :
    dictGet? d k = some v := by
  induction d with
  | nil => simp at hmem
  | cons kv rest ih =>
    simp only [dictKeys, List.map_cons, List.nodup_cons] at hnodup
    obtain ⟨hnotin, hnodup'⟩ := hnodup
    rcases List.mem_cons.mp hmem with h | h
    · subst h
      simp [dictGet?]
    · have hk : kv.1 ≠ k := by
        intro hc
        apply hnotin
        rw [hc]
        exact List.mem_map_of_mem Prod.fst h
      simp only [dictGet?, if_neg hk]
      exact ih hnodup' h

theorem dictGet?_perm {α : Type} (d d' : List (String × α))
    (hperm : d.Perm d') (hnodup : (dictKeys d).Nodup) (k : String) :
    dictGet? d k = dictGet? d' k := by
  have hkeysperm : (dictKeys d).Perm (dictKeys d') := hperm.map Prod.fst
  have hnodup' : (dictKeys d').Nodup := hkeysperm.nodup_iff.mp hnodup
  cases h : dictGet? d k with
  | none =>
    have := (dictGet?_eq_none_iff d k).mp h
    have hnot : k ∉ dictKeys d' := fun hc => this (hkeysperm.mem_iff.mpr hc)
    exact ((dictGet?_eq_none_iff d' k).mpr hnot).symm
  | some v =>
    have hmem := dictGet?_some_mem d k v h
    have hmem' : (k, v) ∈ d' := hperm.mem_iff.mp hmem
    exact (mem_dictGet?_of_nodup d' k v hnodup' hmem').symm

theorem dictKeys_dictInsert {α : Type} (d : List (String × α)) (k : String)
    (v : α) :
    dictKeys (dictInsert d k v) =
      if dictHas d k then dictKeys d else dictKeys d ++ [k] := by
  induction d with
  | nil => simp [dictInsert, dictKeys, dictHas, dictGet?]
  | cons kv rest ih =>
    by_cases h : kv.1 = k
    · simp [dictInsert, dictKeys, dictHas, dictGet?, h]
    · simp only [dictInsert, if_neg h, dictKeys, List.map_cons, dictHas,
        dictGet?, h, if_false] at ih ⊢
      rw [ih]
      split <;> simp

theorem nodup_dictKeys_dictInsert {α : Type} (d : List (String × α))
    (k : String) (v : α) (h : (dictKeys d).Nodup) :
    (dictKeys (dictInsert d k v)).Nodup := by
  rw [dictKeys_dictInsert]
  split
  · exact h
  · rename_i hhas
    have : k ∉ dictKeys d := by
      intro hc
      rw [← dictHas_iff_mem_keys] at hc
      simp [hc] at hhas
    simp [List.nodup_append, h, this]

theorem dictGet?_mapValues {α β : Type} (d : List (String × α)) (g : α → β)
    (k : String) :
    dictGet? (d.map (fun kv => (kv.1, g kv.2))) k = (dictGet? d k).map g := by
  induction d with
  | nil => simp [dictGet?]
  | cons kv rest ih =>
    by_cases h : kv.1 = k <;> simp [dictGet?, h, ih]

theorem dictInsert_of_not_has {α : Type} (d : List (String × α)) (k : String)
    (v : α) (h : dictHas d k = false) : dictInsert d k v = d ++ [(k, v)] := by
  induction d with
  | nil => rfl
  | cons kv rest ih =>
    simp only [dictHas, dictGet?] at h
    by_cases hk : kv.1 = k
    · simp [hk] at h
    · simp only [dictInsert, if_neg hk, List.cons_append, List.cons.injEq,
        true_and]
      apply ih
      simpa [dictHas, hk] using h

/-! Sorting lines versus sorting entries. -/

theorem insertBy_perm {α : Type} (le : α → α → Bool) (x : α) :
    ∀ l, (insertBy le x l).Perm (x :: l) := by
  intro l
  induction l with
  | nil => exact List.Perm.refl _
  | cons y ys ih =>
    by_cases h : le x y
    · simp [insertBy, h]
    · simp only [insertBy, h, Bool.false_eq_true, if_false]
      exact (ih.cons y).trans (List.Perm.swap x y ys)

theorem sortBy_perm {α : Type} (le : α → α → Bool) :
    ∀ l, (sortBy le l).Perm l := by
  intro l
  induction l with
  | nil => exact List.Perm.refl _
  | cons x xs ih =>
    exact (insertBy_perm le x (sortBy le xs)).trans (ih.cons x)

theorem insertLine_map {α : Type} (f : α → String) (x : α) :
    ∀ l, insertLine (f x) (l.map f) =
      (insertBy (fun a b => strLe (f a) (f b)) x l).map f := by
  intro l
  induction l with
  | nil => rfl
  | cons y ys ih =>
    by_cases h : strLe (f x) (f y)
    · simp [insertLine, insertBy, h]
    · simp only [List.map_cons, insertLine, insertBy, h, Bool.false_eq_true,
        if_false, List.map_cons]
      rw [ih]

theorem sortLines_map {α : Type} (f : α → String) :
    ∀ l, sortLines (l.map f) =
      (sortBy (fun a b => strLe (f a) (f b)) l).map f := by
  intro l
  induction l with
  | nil => rfl
  | cons x xs ih =>
    simp only [List.map_cons, sortLines, sortBy]
    rw [ih, insertLine_map]

/-! ## Facts about the characters of parsed identifiers -/

theorem strData_append (a b : String) : (a ++ b).data = a.data ++ b.data :=
  rfl

theorem strMk_data (s : String) : String.mk s.data = s := rfl

theorem strExt (a b : String) (h : a.data = b.data) : a = b := by
  cases a
  cases b
  cases h
  rfl

theorem isWhitespace_cases (c : Char) (h : c.isWhitespace = true) :
    c = ' ' ∨ c = '\t' ∨ c = '\r' ∨ c = '\n' := by
  simp [Char.isWhitespace] at h
  tauto

theorem alnum_not_ws (c : Char) (h : c.isAlphanum = true) :
    wsChar c = false := by
  unfold wsChar
  by_contra hc
  simp only [Bool.not_eq_false] at hc
  rcases isWhitespace_cases c hc with h' | h' | h' | h' <;> subst h' <;>
    exact absurd h (by decide)

theorem alnum_or_underscore_facts (c : Char)
    (h : c = '_' ∨ c.isAlphanum = true) :
    wsChar c = false ∧ reSplitChar c = false ∧ c ≠ '.' := by
  rcases h with h | h
  · subst h
    refine ⟨by decide, by decide, by decide⟩
  · have hws := alnum_not_ws c h
    have hcomma : c ≠ ',' := fun hc => by
      subst hc; exact absurd h (by decide)
    have hdot : c ≠ '.' := fun hc => by
      subst hc; exact absurd h (by decide)
    refine ⟨hws, ?_, hdot⟩
    unfold reSplitChar
    simp [hws, hcomma]

theorem strSplitOnChar_reconstruct (c : Char) (s : String)
    (parts : List String) (h : strSplitOnChar c s = parts) :
    s.data = List.intercalate [c] (parts.map String.data) := by
  unfold strSplitOnChar at h
  have hdata : parts.map String.data = splitOnP (· = c) s.data := by
    rw [← h, List.map_map]
    have hid : (String.data ∘ String.mk) = id := rfl
    rw [hid, List.map_id]
  rw [hdata, intercalate_splitOnP]

theorem chars_of_underscore_fields (s : String) (parts : List String)
    (hsplit : strSplitOnChar '_' s = parts)
    (hvalid : ∀ p ∈ parts, scanid.validField p = true) :
    ∀ c ∈ s.data, c = '_' ∨ c.isAlphanum = true := by
  intro c hc
  rw [strSplitOnChar_reconstruct '_' s parts hsplit] at hc
  rcases mem_intercalate ['_'] (parts.map String.data) c hc with
    ⟨t, ht, hct⟩ | hsep
  · obtain ⟨p, hp, hpt⟩ := List.mem_map.mp ht
    subst hpt
    have := hvalid p hp
    unfold scanid.validField at this
    simp only [Bool.and_eq_true, List.all_eq_true] at this
    exact Or.inr (this.2 c hct)
  · simp only [List.mem_singleton] at hsep
    exact Or.inl hsep

theorem data_ne_nil_of_head_field (s : String) (p : String)
    (parts : List String) (hsplit : strSplitOnChar '_' s = p :: parts)
    (hvalid : scanid.validField p = true) : s.data ≠ [] := by
  rw [strSplitOnChar_reconstruct '_' s (p :: parts) hsplit]
  have hp : p.data ≠ [] := by
    unfold scanid.validField at hvalid
    simp only [Bool.and_eq_true, ne_eq, decide_not] at hvalid
    intro hc
    exact absurd (strExt p "" hc) (by simpa using hvalid.1)
  cases parts with
  | nil =>
    rw [List.map_cons, List.map_nil, intercalate_single]
    exact hp
  | cons q rest =>
    rw [List.map_cons, List.map_cons, intercalate_cons_cons]
    intro hc
    rw [List.append_assoc] at hc
    exact hp (List.append_eq_nil.mp hc).1

/-- The character-level well-formedness every successfully parsed subject
identifier enjoys, plus the canonical-form equation for sessionless ones. -/
theorem parse_key_facts (k : String) (i : scanid.ScanIdentifier)
    (h : scanid.parse k = some i) :
    (∀ c ∈ k.data, c = '_' ∨ c.isAlphanum = true) ∧ k.data ≠ [] ∧
      (i.session = none → scanid.fullSubjectIdWithTimepoint i = k) := by
  unfold scanid.parse at h
  split at h
  · rename_i st si su tp heq
    split at h
    · rename_i hcond
      simp only [Bool.and_eq_true] at hcond
      obtain ⟨⟨⟨h1, h2⟩, h3⟩, h4⟩ := hcond
      have hvalid : ∀ p ∈ [st, si, su, tp], scanid.validField p = true := by
        intro p hp
        simp only [List.mem_cons, List.mem_singleton, List.not_mem_nil,
          or_false] at hp
        rcases hp with rfl | rfl | rfl | rfl <;> assumption
      cases h
      refine ⟨chars_of_underscore_fields k _ heq hvalid,
        data_ne_nil_of_head_field k st _ heq h1, ?_⟩
      intro _
      apply strExt
      rw [strSplitOnChar_reconstruct '_' k _ heq]
      show (scanid.fullSubjectIdWithTimepoint ⟨st, si, su, tp, none⟩).data = _
      unfold scanid.fullSubjectIdWithTimepoint
      simp only [List.map_cons, List.map_nil, intercalate_cons_cons,
        intercalate_single, strData_append]
      simp [List.append_assoc]
    · exact absurd h (by simp)
  · rename_i st si su tp se heq
    split at h
    · rename_i hcond
      simp only [Bool.and_eq_true] at hcond
      obtain ⟨⟨⟨⟨h1, h2⟩, h3⟩, h4⟩, h5⟩ := hcond
      have hvalid : ∀ p ∈ [st, si, su, tp, se],
          scanid.validField p = true := by
        intro p hp
        simp only [List.mem_cons, List.mem_singleton, List.not_mem_nil,
          or_false] at hp
        rcases hp with rfl | rfl | rfl | rfl | rfl <;> assumption
      cases h
      refine ⟨chars_of_underscore_fields k _ heq hvalid,
        data_ne_nil_of_head_field k st _ heq h1, ?_⟩
      intro hs
      simp at hs
    · exact absurd h (by simp)
  · exact absurd h (by simp)

/-- The character-level well-formedness of scan names accepted by
`parse_filename`. -/
theorem parse_filename_facts (s : String)
    (x : scanid.ScanIdentifier × String × String × String)
    (h : scanid.parse_filename s = some x) :
    (∀ c ∈ s.data, c = '_' ∨ c.isAlphanum = true) ∧ s.data ≠ [] := by
  unfold scanid.parse_filename at h
  split at h
  · rename_i st si su tp se tag series d0 ds heq
    split at h
    · rename_i hcond
      simp only [Bool.and_eq_true, List.all_eq_true] at hcond
      obtain ⟨⟨⟨⟨⟨⟨⟨h1, h2⟩, h3⟩, h4⟩, h5⟩, h6⟩, h7⟩, h8⟩ := hcond
      have hvalid : ∀ p ∈ st :: si :: su :: tp :: se :: tag :: series ::
          d0 :: ds, scanid.validField p = true := by
        intro p hp
        simp only [List.mem_cons] at hp
        rcases hp with rfl | rfl | rfl | rfl | rfl | rfl | rfl | hp
        · exact h1
        · exact h2
        · exact h3
        · exact h4
        · exact h5
        · exact h6
        · exact h7
        · rcases hp with rfl | hp
          · exact h8 _ (List.mem_cons_self _ _)
          · exact h8 p (List.mem_cons_of_mem _ hp)
      exact ⟨chars_of_underscore_fields s _ heq hvalid,
        data_ne_nil_of_head_field s st _ heq h1⟩
    · exact absurd h (by simp)
  · exact absurd h (by simp)

/-! Boundary facts about `pyStrip`. -/

theorem head?_append_of_ne_nil {α : Type} (l m : List α) (h : l ≠ []) :
    (l ++ m).head? = l.head? := by
  cases l with
  | nil => exact absurd rfl h
  | cons a l' => rfl

theorem mem_of_head? {α : Type} (l : List α) (a : α) (h : l.head? = some a) :
    a ∈ l := by
  cases l with
  | nil => simp at h
  | cons x l' =>
    simp only [List.head?_cons, Option.some.injEq] at h
    subst h
    exact List.mem_cons_self _ _

theorem mem_of_getLast? {α : Type} (l : List α) (a : α)
    (h : l.getLast? = some a) : a ∈ l := by
  have : l.reverse.head? = some a := by rwa [List.head?_reverse]
  have := mem_of_head? l.reverse a this
  rwa [List.mem_reverse] at this

theorem pyStripRight_eq_self_of_all (l : List Char)
    (h : ∀ c ∈ l, wsChar c = false) : pyStripRight l = l := by
  unfold pyStripRight
  cases hrev : l.reverse with
  | nil => simp [hrev, List.reverse_eq_nil_iff.mp hrev]
  | cons a as =>
    have ha : wsChar a = false := by
      apply h
      rw [← List.mem_reverse, hrev]
      exact List.mem_cons_self _ _
    rw [dropWhile_eq_self_of_head _ _ _ ha, ← hrev, List.reverse_reverse]

theorem pyStrip_eq_self_of_all (l : List Char)
    (h : ∀ c ∈ l, wsChar c = false) : pyStrip l = l := by
  apply pyStrip_eq_self
  · intro c hc
    exact h c (mem_of_head? l c hc)
  · intro c hc
    exact h c (mem_of_getLast? l c hc)

theorem dropWhile_suffix_decomp {α : Type} (p : α → Bool) (l : List α) :
    ∃ pre, pre ++ l.dropWhile p = l := by
  induction l with
  | nil => exact ⟨[], rfl⟩
  | cons a l ih =>
    by_cases h : p a
    · obtain ⟨pre, hpre⟩ := ih
      refine ⟨a :: pre, ?_⟩
      rw [List.dropWhile_cons_of_pos h, List.cons_append, hpre]
    · exact ⟨[], by rw [List.nil_append,
        List.dropWhile_cons_of_neg (by simpa using h)]⟩

theorem getLast?_pyStrip_nonws (l : List Char) (a : Char)
    (h : (pyStrip l).getLast? = some a) : wsChar a = false := by
  unfold pyStrip at h
  rw [← List.head?_reverse, List.reverse_reverse] at h
  exact head?_dropWhile_neg wsChar (l.dropWhile wsChar).reverse a h

theorem head?_pyStrip_nonws (l : List Char) (a : Char)
    (h : (pyStrip l).head? = some a) : wsChar a = false := by
  unfold pyStrip at h
  rw [← List.getLast?_reverse, List.reverse_reverse] at h
  set y := l.dropWhile wsChar with hy
  set z := y.reverse.dropWhile wsChar with hz
  obtain ⟨pre, hpre⟩ := dropWhile_suffix_decomp wsChar y.reverse
  rw [← hz] at hpre
  have hzne : z ≠ [] := by
    intro hc
    rw [hc] at h
    simp at h
  have h1 : (y.reverse).getLast? = some a := by
    rw [← hpre, List.getLast?_append_of_ne_nil pre hzne]
    exact h
  rw [List.getLast?_reverse] at h1
  exact head?_dropWhile_neg wsChar l a h1

theorem pyStrip_idem (l : List Char) : pyStrip (pyStrip l) = pyStrip l := by
  apply pyStrip_eq_self
  · exact head?_pyStrip_nonws l
  · exact getLast?_pyStrip_nonws l

/-! Boundary facts about space-joined token lists. -/

theorem intercalate_ne_nil_of_head (t : List Char) (ht : t ≠ [])
    (ts : List (List Char)) : List.intercalate [' '] (t :: ts) ≠ [] := by
  cases ts with
  | nil => rwa [intercalate_single]
  | cons t' rest =>
    rw [intercalate_cons_cons]
    intro hc
    rw [List.append_assoc] at hc
    exact ht (List.append_eq_nil.mp hc).1

theorem head?_intercalate_tokens (t : List Char) (ht : t ≠ [])
    (ts : List (List Char)) :
    (List.intercalate [' '] (t :: ts)).head? = t.head? := by
  cases ts with
  | nil => rw [intercalate_single]
  | cons t' rest =>
    rw [intercalate_cons_cons, List.append_assoc]
    exact head?_append_of_ne_nil t _ ht

theorem getLast?_intercalate_tokens :
    ∀ (ts : List (List Char)) (t : List Char), (∀ u ∈ t :: ts, u ≠ []) →
      ∃ tl ∈ t :: ts,
        (List.intercalate [' '] (t :: ts)).getLast? = tl.getLast? := by
  intro ts
  induction ts with
  | nil =>
    intro t _
    exact ⟨t, List.mem_cons_self _ _, by rw [intercalate_single]⟩
  | cons t' rest ih =>
    intro t h
    have hJ : List.intercalate [' '] (t' :: rest) ≠ [] :=
      intercalate_ne_nil_of_head t' (h t' (by simp)) rest
    obtain ⟨tl, htl, heq⟩ := ih t' (fun u hu => h u (by
      rcases List.mem_cons.mp hu with h' | h'
      · exact h' ▸ List.mem_cons_of_mem _ (List.mem_cons_self _ _)
      · exact List.mem_cons_of_mem _ (List.mem_cons_of_mem _ h')))
    refine ⟨tl, ?_, ?_⟩
    · rcases List.mem_cons.mp htl with h' | h'
      · exact h' ▸ List.mem_cons_of_mem _ (List.mem_cons_self _ _)
      · exact List.mem_cons_of_mem _ (List.mem_cons_of_mem _ h')
    · rw [intercalate_cons_cons, List.getLast?_append_of_ne_nil _ hJ, heq]

theorem pyStrip_intercalate_tokens (ts : List (List Char))
    (h : ∀ t ∈ ts, t ≠ [] ∧ ∀ c ∈ t, wsChar c = false) :
    pyStrip (List.intercalate [' '] ts) = List.intercalate [' '] ts := by
  cases ts with
  | nil => rfl
  | cons t rest =>
    apply pyStrip_eq_self
    · intro c hc
      rw [head?_intercalate_tokens t (h t (by simp)).1 rest] at hc
      exact (h t (by simp)).2 c (mem_of_head? t c hc)
    · intro c hc
      obtain ⟨tl, htl, heq⟩ := getLast?_intercalate_tokens rest t
        (fun u hu => (h u hu).1)
      rw [heq] at hc
      exact (h tl htl).2 c (mem_of_getLast? tl c hc)

theorem pyJoin_data (parts : List String) :
    (pyJoin " " parts).data = List.intercalate [' '] (parts.map String.data)
    := rfl

theorem pyJoin_mk_data (ts : List (List Char)) :
    (pyJoin " " (ts.map String.mk)).data = List.intercalate [' '] ts := by
  rw [pyJoin_data, List.map_map]
  have hid : (String.data ∘ String.mk) = id := rfl
  rw [hid, List.map_id]

theorem strStrip_data (s : String) : (strStrip s).data = pyStrip s.data :=
  rfl

/-- The comment a checklist read stores is unchanged by a further
write/read normalisation cycle. -/
theorem clNormal_of_tokens (ts : List (List Char))
    (h : ∀ t ∈ ts, t ≠ [] ∧ ∀ c ∈ t, wsChar c = false) :
    clNormal (strStrip (pyJoin " " (ts.map String.mk))) =
      strStrip (pyJoin " " (ts.map String.mk)) := by
  have hstrip : pyStrip (List.intercalate [' '] ts) =
      List.intercalate [' '] ts := pyStrip_intercalate_tokens ts h
  have hself : strStrip (pyJoin " " (ts.map String.mk)) =
      pyJoin " " (ts.map String.mk) := by
    apply strExt
    rw [strStrip_data, pyJoin_mk_data, hstrip]
  rw [hself]
  unfold clNormal
  have htok : strTokens (pyJoin " " (ts.map String.mk)) =
      ts.map String.mk := by
    unfold strTokens pyTokens
    rw [pyJoin_mk_data]
    rw [show pyTokensAux [] (List.intercalate [' '] ts) =
      pyTokens (List.intercalate [' '] ts) from rfl]
    rw [pyTokens_intercalate ts h]
  rw [htok, hself]

/-- The reason a blacklist read stores is unchanged by a further write/read
normalisation cycle. -/
theorem blNormal_of_parts (ts : List (List Char))
    (h : ∀ t ∈ ts, ∀ c ∈ t, reSplitChar c = false) :
    blNormal (strStrip (pyJoin " " (ts.map String.mk))) =
      strStrip (pyJoin " " (ts.map String.mk)) := by
  have hcdata : (strStrip (pyJoin " " (ts.map String.mk))).data =
      pyStrip (List.intercalate [' '] ts) := by
    rw [strStrip_data, pyJoin_mk_data]
  have hpoint : ∀ ch ∈ (strStrip (pyJoin " " (ts.map String.mk))).data,
      reSplitChar ch = decide (ch = ' ') := by
    intro ch hch
    rw [hcdata] at hch
    have hmem := mem_of_mem_pyStrip _ ch hch
    rcases mem_intercalate [' '] ts ch hmem with ⟨t, ht, hct⟩ | hsep
    · have hfree := h t ht ch hct
      have hnotsp : ch ≠ ' ' := by
        intro hc
        rw [hc] at hfree
        simp [reSplitChar, wsChar] at hfree
      simp [hfree, hnotsp]
    · simp only [List.mem_singleton] at hsep
      subst hsep
      simp [reSplitChar, wsChar]
  unfold blNormal
  rw [show pyStripRight (strStrip (pyJoin " " (ts.map String.mk))).data =
      (strStrip (pyJoin " " (ts.map String.mk))).data by
    rw [strStrip_data]
    exact pyStripRight_pyStrip _]
  rw [splitOnP_congr reSplitChar (fun ch => decide (ch = ' ')) _ hpoint]
  apply strExt
  rw [strStrip_data, pyJoin_data, List.map_map]
  have hid : (String.data ∘ String.mk) = id := rfl
  rw [hid, List.map_id]
  rw [intercalate_splitOnP ' ' _]
  rw [strStrip_data]
  exact pyStrip_idem _

/-! ## What one written metadata line parses back to -/

theorem splitextRoot_html (k : String) (hdot : ∀ c ∈ k.data, c ≠ '.') :
    splitextRoot (k ++ ".html") = k := by
  have hmhtml : splitOnP (· = '.') ('.' :: "html".data) =
      [[], "html".data] := rfl
  have hsplit : strSplitOnChar '.' (k ++ ".html") = [k, "html"] := by
    unfold strSplitOnChar
    have hdata : (k ++ ".html").data = k.data ++ '.' :: "html".data := rfl
    rw [hdata]
    rw [splitOnP_append_sepFree (· = '.') k.data ('.' :: "html".data)
      (fun c hc => by simpa using hdot c hc) [] ["html".data] hmhtml]
    simp [strMk_data]
  unfold splitextRoot
  rw [hsplit]
  simp only [List.length_cons, List.length_singleton]
  rw [if_neg (by omega)]
  apply strExt
  rw [show ([k, "html"] : List String).dropLast = [k] from rfl]
  rw [show (pyJoin "." [k]).data =
    List.intercalate ['.'] [k.data] from rfl]
  rw [intercalate_single]

theorem checklistLine_data (k v : String) :
    (checklistLine k v).data =
      ("qc_".data ++ k.data ++ ".html".data) ++ ' ' :: (v.data ++ ['\n']) := by
  unfold checklistLine
  simp only [strData_append]
  simp [List.append_assoc]

theorem strTokens_checklistLine (k v : String)
    (hk : ∀ c ∈ k.data, c = '_' ∨ c.isAlphanum = true) (hne : k.data ≠ []) :
    strTokens (checklistLine k v) =
      String.mk ("qc_".data ++ k.data ++ ".html".data) :: strTokens v := by
  unfold strTokens
  rw [checklistLine_data]
  have htne : ("qc_".data ++ k.data ++ ".html".data) ≠ [] := by simp
  have htws : ∀ c ∈ "qc_".data ++ k.data ++ ".html".data,
      wsChar c = false := by
    intro c hc
    rcases List.mem_append.mp hc with hc' | hc'
    · rcases List.mem_append.mp hc' with hc'' | hc''
      · have hq : ∀ x ∈ "qc_".data, wsChar x = false := by decide
        exact hq c hc''
      · exact (alnum_or_underscore_facts c (hk c hc'')).1
    · have hh : ∀ x ∈ ".html".data, wsChar x = false := by decide
      exact hh c hc'
  rw [show pyTokens ((("qc_".data ++ k.data ++ ".html".data)) ++
      ' ' :: (v.data ++ ['\n'])) =
      ("qc_".data ++ k.data ++ ".html".data) ::
        pyTokens (v.data ++ ['\n']) from
    pyTokens_token_cons _ htne htws ' ' (by decide) _]
  rw [show pyTokens (v.data ++ ['\n']) = pyTokens v.data by
    unfold pyTokens
    exact pyTokensAux_trailing_ws '\n' (by decide) v.data []]
  rfl

/-- Parsing one freshly written checklist line: the subject comes back as
`k`, the comment as `clNormal v`. -/
theorem clStep_checklistLine (E : List (String × String)) (k v : String)
    (i : scanid.ScanIdentifier) (hparse : scanid.parse k = some i)
    (hqc : hasInfix "qc_".data ((k ++ ".html").data) = false) :
    clStep E (checklistLine k v) =
      if E ≠ [] && dictHas E k then E
      else dictInsert E k (clNormal v) := by
  obtain ⟨hchars, hne, _⟩ := parse_key_facts k i hparse
  have hrepl : strReplace
      (String.mk ("qc_".data ++ k.data ++ ".html".data)) "qc_" "" =
      k ++ ".html" := by
    unfold strReplace
    rw [show (String.mk ("qc_".data ++ k.data ++ ".html".data)).data =
      "qc_".data ++ (k ++ ".html").data by
        rw [strMk_data ⟨_⟩]
        rw [show (k ++ ".html").data = k.data ++ ".html".data from rfl]
        rw [List.append_assoc]]
    rw [listReplace_strip_leading "qc_".data ("" : String).data _
      (by decide) hqc]
    rfl
  unfold clStep
  rw [strTokens_checklistLine k v hchars hne]
  simp only [hrepl, splitextRoot_html k
    (fun c hc => (alnum_or_underscore_facts c (hchars c hc)).2.2), hparse]
  rfl

theorem blacklistLine_data (k v : String) :
    (blacklistLine k v).data = k.data ++ ' ' :: (v.data ++ ['\n']) := by
  unfold blacklistLine
  simp only [strData_append]
  simp [List.append_assoc]

theorem strStrip_blacklistLine_data (k v : String)
    (hk : ∀ c ∈ k.data, wsChar c = false) (hne : k.data ≠ []) :
    (strStrip (blacklistLine k v)).data =
      if pyStripRight v.data = [] then k.data
      else k.data ++ ' ' :: pyStripRight v.data := by
  rw [strStrip_data, blacklistLine_data]
  cases hkd : k.data with
  | nil => exact absurd hkd hne
  | cons c rest =>
    have hc : wsChar c = false := by
      apply hk
      rw [hkd]
      exact List.mem_cons_self _ _
    rw [show (c :: rest) ++ ' ' :: (v.data ++ ['\n']) =
      c :: (rest ++ ' ' :: (v.data ++ ['\n'])) from rfl]
    rw [pyStrip_cons_of_head _ _ hc]
    rw [show (c :: (rest ++ ' ' :: (v.data ++ ['\n']))) =
      (c :: rest) ++ (' ' :: (v.data ++ ['\n'])) from rfl]
    rw [pyStripRight_append]
    have hm : pyStripRight (' ' :: (v.data ++ ['\n'])) =
        if pyStripRight v.data = [] then []
        else ' ' :: pyStripRight v.data := by
      rw [show (' ' :: (v.data ++ ['\n'])) =
        ([' '] ++ v.data) ++ ['\n'] by simp]
      rw [pyStripRight_append ([' '] ++ v.data) ['\n']]
      rw [show pyStripRight ['\n'] = [] from rfl, if_pos rfl]
      rw [pyStripRight_append [' '] v.data]
      by_cases hv : pyStripRight v.data = []
      · rw [if_pos hv, if_pos hv]
        rfl
      · rw [if_neg hv, if_neg hv]
        rfl
    rw [hm]
    by_cases hv : pyStripRight v.data = []
    · simp only [hv, if_pos rfl, if_true]
      simp only [← hkd]
      exact pyStripRight_eq_self_of_all _ hk
    · simp [hv, ← hkd]

/-- `parse_filename` rejects the literal `series`, so the header can never
collide with a real key. -/
theorem parse_filename_series : scanid.parse_filename "series" = none := by
  rfl

/-- Parsing one freshly written blacklist line: the scan name comes back as
`k`, the reason as `blNormal v`. -/
theorem blStep_blacklistLine (E : List (String × String)) (k v : String)
    (hx : (scanid.parse_filename k).isSome = true) :
    blStep E (blacklistLine k v) =
      if E ≠ [] && dictHas E k then E
      else dictInsert E k (blNormal v) := by
  obtain ⟨x, hxeq⟩ := Option.isSome_iff_exists.mp hx
  obtain ⟨hchars, hne⟩ := parse_filename_facts k x hxeq
  have hsep : ∀ c ∈ k.data, reSplitChar c = false :=
    fun c hc => (alnum_or_underscore_facts c (hchars c hc)).2.1
  have hws : ∀ c ∈ k.data, wsChar c = false :=
    fun c hc => (alnum_or_underscore_facts c (hchars c hc)).1
  have hseries : k ≠ "series" := by
    intro hcon
    rw [hcon, parse_filename_series] at hxeq
    exact Option.noConfusion hxeq
  unfold blStep
  by_cases hv : pyStripRight v.data = []
  · have hfields : reSplitFields (strStrip (blacklistLine k v)) = [k] := by
      unfold reSplitFields
      rw [strStrip_blacklistLine_data k v hws hne, if_pos hv]
      rw [splitOnP_sepFree reSplitChar k.data hsep]
      simp [strMk_data]
    rw [hfields]
    have hbn : blNormal v = strStrip (pyJoin " " ([] : List String)) := by
      unfold blNormal
      rw [hv]
      rfl
    simp only [hxeq, if_neg hseries, ← hbn]
  · have hfields : reSplitFields (strStrip (blacklistLine k v)) =
        k :: (splitOnP reSplitChar (pyStripRight v.data)).map String.mk := by
      unfold reSplitFields
      rw [strStrip_blacklistLine_data k v hws hne, if_neg hv]
      rcases hsplit : splitOnP reSplitChar (' ' :: pyStripRight v.data) with
        _ | ⟨t, ts⟩
      · exact absurd hsplit (splitOnP_ne_nil _ _)
      · have hsp : splitOnP reSplitChar (' ' :: pyStripRight v.data) =
            [] :: splitOnP reSplitChar (pyStripRight v.data) := by
          simp [splitOnP, reSplitChar, wsChar]
        rw [hsp] at hsplit
        cases hsplit
        rw [splitOnP_append_sepFree reSplitChar k.data _ hsep _ _ hsp]
        simp [strMk_data]
    rw [hfields]
    simp only [hxeq, if_neg hseries]
    rfl

/-! ## Invariants of the parsed dictionaries -/

theorem mem_dictInsert {α : Type} (d : List (String × α)) (k : String)
    (v : α) (kv : String × α) (h : kv ∈ dictInsert d k v) :
    kv ∈ d ∨ kv = (k, v) := by
  induction d with
  | nil =>
    simp only [dictInsert, List.mem_singleton] at h
    exact Or.inr h
  | cons kv0 rest ih =>
    obtain ⟨k0, v0⟩ := kv0
    by_cases hk : k0 = k
    · subst hk
      simp only [dictInsert, if_pos rfl] at h
      rcases List.mem_cons.mp h with h | h
      · exact Or.inr h
      · exact Or.inl (List.mem_cons_of_mem _ h)
    · simp only [dictInsert, if_neg hk] at h
      rcases List.mem_cons.mp h with h | h
      · rw [h]
        exact Or.inl (List.mem_cons_self _ _)
      · rcases ih h with h' | h'
        · exact Or.inl (List.mem_cons_of_mem _ h')
        · exact Or.inr h'

/-- One `_parse_checklist` step keeps the keys distinct and parseable and
the comments normalisation-fixed. -/
theorem clStep_inv (E : List (String × String)) (line : String)
    (hnodup : (dictKeys E).Nodup)
    (hwf : ∀ kv ∈ E, (∃ i, scanid.parse kv.1 = some i) ∧
      clNormal kv.2 = kv.2) :
    (dictKeys (clStep E line)).Nodup ∧
      ∀ kv ∈ clStep E line, (∃ i, scanid.parse kv.1 = some i) ∧
        clNormal kv.2 = kv.2 := by
  unfold clStep
  split
  · exact ⟨hnodup, hwf⟩
  · rename_i f0 rest htok
    dsimp only
    split
    · exact ⟨hnodup, hwf⟩
    · rename_i i hparse
      split
      · exact ⟨hnodup, hwf⟩
      · refine ⟨nodup_dictKeys_dictInsert _ _ _ hnodup, ?_⟩
        intro kv hkv
        rcases mem_dictInsert _ _ _ _ hkv with h | h
        · exact hwf kv h
        · have hrest : ∃ ts : List (List Char), (∀ t ∈ ts, t ≠ [] ∧
              ∀ c ∈ t, wsChar c = false) ∧ rest = ts.map String.mk := by
            unfold strTokens at htok
            cases hpt : pyTokens line.data with
            | nil => rw [hpt] at htok; exact absurd htok (by simp)
            | cons t0 ts =>
              rw [hpt] at htok
              refine ⟨ts, ?_, ?_⟩
              · intro t ht
                have := pyTokensAux_wf line.data [] (by simp)
                rw [show pyTokensAux [] line.data = pyTokens line.data
                  from rfl, hpt] at this
                exact this t (List.mem_cons_of_mem _ ht)
              · exact (by simpa using congrArg List.tail htok : List.map String.mk _ = rest).symm
          obtain ⟨ts, hts, hrest⟩ := hrest
          subst h
          refine ⟨⟨i, hparse⟩, ?_⟩
          rw [hrest]
          exact clNormal_of_tokens ts hts

/-- `_parse_checklist` of any file: distinct parseable keys, fixed-point
comments. -/
theorem parse_checklist_inv (lines : List String) :
    ∀ E, (dictKeys E).Nodup →
      (∀ kv ∈ E, (∃ i, scanid.parse kv.1 = some i) ∧
        clNormal kv.2 = kv.2) →
      (dictKeys (lines.foldl clStep E)).Nodup ∧
        ∀ kv ∈ lines.foldl clStep E,
          (∃ i, scanid.parse kv.1 = some i) ∧ clNormal kv.2 = kv.2 := by
  induction lines with
  | nil => exact fun E h1 h2 => ⟨h1, h2⟩
  | cons l rest ih =>
    intro E h1 h2
    obtain ⟨h1', h2'⟩ := clStep_inv E l h1 h2
    exact ih (clStep E l) h1' h2'

/-- One `_parse_blacklist` step keeps the keys distinct and parseable as
scan names and the reasons normalisation-fixed. -/
theorem blStep_inv (E : List (String × String)) (line : String)
    (hnodup : (dictKeys E).Nodup)
    (hwf : ∀ kv ∈ E, (scanid.parse_filename kv.1).isSome = true ∧
      blNormal kv.2 = kv.2) :
    (dictKeys (blStep E line)).Nodup ∧
      ∀ kv ∈ blStep E line, (scanid.parse_filename kv.1).isSome = true ∧
        blNormal kv.2 = kv.2 := by
  unfold blStep
  split
  · exact ⟨hnodup, hwf⟩
  · rename_i scan_name rest hfields
    dsimp only
    split
    · exact ⟨hnodup, hwf⟩
    · rename_i x hparse
      split
      · exact ⟨hnodup, hwf⟩
      · split
        · exact ⟨hnodup, hwf⟩
        · refine ⟨nodup_dictKeys_dictInsert _ _ _ hnodup, ?_⟩
          intro kv hkv
          rcases mem_dictInsert _ _ _ _ hkv with h | h
          · exact hwf kv h
          · have hrest : ∃ ts : List (List Char), (∀ t ∈ ts, ∀ c ∈ t,
                reSplitChar c = false) ∧ rest = ts.map String.mk := by
              unfold reSplitFields at hfields
              cases hpt : splitOnP reSplitChar (strStrip line).data with
              | nil => exact absurd hpt (splitOnP_ne_nil _ _)
              | cons t0 ts =>
                rw [hpt] at hfields
                refine ⟨ts, ?_, ?_⟩
                · intro t ht c hc
                  exact (splitOnP_parts_sepFree reSplitChar
                    (strStrip line).data t
                    (hpt ▸ List.mem_cons_of_mem _ ht) c hc).1
                · exact (by simpa using congrArg List.tail hfields : List.map String.mk _ = rest).symm
            obtain ⟨ts, hts, hrest⟩ := hrest
            subst h
            refine ⟨by rw [hparse]; rfl, ?_⟩
            rw [hrest]
            exact blNormal_of_parts ts hts

/-- `_parse_blacklist` of any file: distinct parseable keys, fixed-point
reasons. -/
theorem parse_blacklist_inv (lines : List String) :
    ∀ E, (dictKeys E).Nodup →
      (∀ kv ∈ E, (scanid.parse_filename kv.1).isSome = true ∧
        blNormal kv.2 = kv.2) →
      (dictKeys (lines.foldl blStep E)).Nodup ∧
        ∀ kv ∈ lines.foldl blStep E,
          (scanid.parse_filename kv.1).isSome = true ∧
            blNormal kv.2 = kv.2 := by
  induction lines with
  | nil => exact fun E h1 h2 => ⟨h1, h2⟩
  | cons l rest ih =>
    intro E h1 h2
    obtain ⟨h1', h2'⟩ := blStep_inv E l h1 h2
    exact ih (blStep E l) h1' h2'

/-! ## Reading back a rendered dictionary -/

/-- Folding the checklist parser over freshly rendered lines with pairwise
distinct, fresh keys appends exactly the normalised entries. -/
theorem clFold_render :
    ∀ (M E : List (String × String)),
      (∀ kv ∈ M, ∃ i, scanid.parse kv.1 = some i) →
      (∀ kv ∈ M, hasInfix ("qc_".data) ((kv.1 ++ ".html").data) = false) →
      (dictKeys E ++ dictKeys M).Nodup →
      List.foldl clStep E (M.map (fun kv => checklistLine kv.1 kv.2)) =
        E ++ M.map (fun kv => (kv.1, clNormal kv.2)) := by
  intro M
  induction M with
  | nil =>
    intro E _ _ _
    simp
  | cons kv rest ih =>
    intro E hparse hqc hnodup
    obtain ⟨k, v⟩ := kv
    obtain ⟨i, hi⟩ := hparse (k, v) (List.mem_cons_self _ _)
    have hkE : dictHas E k = false := by
      have hdisj := (List.nodup_append.mp hnodup).2.2
      have hknot : k ∉ dictKeys E := fun hc =>
        hdisj hc (by simp [dictKeys])
      cases hhas : dictHas E k
      · rfl
      · exact absurd ((dictHas_iff_mem_keys E k).mp hhas) hknot
    simp only [List.map_cons, List.foldl_cons]
    rw [clStep_checklistLine E k v i hi
      (hqc (k, v) (List.mem_cons_self _ _))]
    rw [if_neg (by simp [hkE])]
    rw [dictInsert_of_not_has E k _ hkE]
    rw [ih (E ++ [(k, clNormal v)])
      (fun kv' h => hparse kv' (List.mem_cons_of_mem _ h))
      (fun kv' h => hqc kv' (List.mem_cons_of_mem _ h))
      (by
        have : dictKeys (E ++ [(k, clNormal v)]) ++ dictKeys rest =
            dictKeys E ++ dictKeys ((k, v) :: rest) := by
          simp [dictKeys, List.append_assoc]
        rw [this]
        exact hnodup)]
    simp [List.append_assoc]

/-- The header line `series\treason` is discarded by the blacklist parser,
whatever has been read so far. -/
theorem blStep_header (E : List (String × String)) :
    blStep E "series\treason\n" = E := rfl

/-- Folding the blacklist parser over freshly rendered lines with pairwise
distinct, fresh keys appends exactly the normalised entries. -/
theorem blFold_render :
    ∀ (M E : List (String × String)),
      (∀ kv ∈ M, (scanid.parse_filename kv.1).isSome = true) →
      (dictKeys E ++ dictKeys M).Nodup →
      List.foldl blStep E (M.map (fun kv => blacklistLine kv.1 kv.2)) =
        E ++ M.map (fun kv => (kv.1, blNormal kv.2)) := by
  intro M
  induction M with
  | nil =>
    intro E _ _
    simp
  | cons kv rest ih =>
    intro E hparse hnodup
    obtain ⟨k, v⟩ := kv
    have hk := hparse (k, v) (List.mem_cons_self _ _)
    have hkE : dictHas E k = false := by
      have hdisj := (List.nodup_append.mp hnodup).2.2
      have hknot : k ∉ dictKeys E := fun hc =>
        hdisj hc (by simp [dictKeys])
      cases hhas : dictHas E k
      · rfl
      · exact absurd ((dictHas_iff_mem_keys E k).mp hhas) hknot
    simp only [List.map_cons, List.foldl_cons]
    rw [blStep_blacklistLine E k v hk]
    rw [if_neg (by simp [hkE])]
    rw [dictInsert_of_not_has E k _ hkE]
    rw [ih (E ++ [(k, blNormal v)])
      (fun kv' h => hparse kv' (List.mem_cons_of_mem _ h))
      (by
        have : dictKeys (E ++ [(k, blNormal v)]) ++ dictKeys rest =
            dictKeys E ++ dictKeys ((k, v) :: rest) := by
          simp [dictKeys, List.append_assoc]
        rw [this]
        exact hnodup)]
    simp [List.append_assoc]

/-! ## The merged dictionary as a function of the two inputs -/

theorem foldl_dictInsert_get {α : Type} :
    ∀ (delta old : List (String × α)) (k : String),
      (dictKeys delta).Nodup →
      dictGet? (delta.foldl (fun o kv => dictInsert o kv.1 kv.2) old) k =
        (dictGet? delta k).or (dictGet? old k) := by
  intro delta
  induction delta with
  | nil =>
    intro old k _
    simp [dictGet?]
  | cons kv rest ih =>
    intro old k hnodup
    obtain ⟨k0, v0⟩ := kv
    simp only [dictKeys, List.map_cons, List.nodup_cons] at hnodup
    obtain ⟨hk0, hnodup'⟩ := hnodup
    simp only [List.foldl_cons]
    rw [ih (dictInsert old k0 v0) k hnodup']
    by_cases hk : k0 = k
    · subst hk
      have hrest : dictGet? rest k0 = none :=
        (dictGet?_eq_none_iff rest k0).mpr (by simpa [dictKeys] using hk0)
      rw [hrest, dictGet?_dictInsert, if_pos rfl]
      simp [dictGet?, Option.or]
    · rw [dictGet?_dictInsert, if_neg hk]
      simp [dictGet?, hk]

theorem foldl_dictInsert_nodup {α : Type} :
    ∀ (delta old : List (String × α)), (dictKeys old).Nodup →
      (dictKeys (delta.foldl (fun o kv => dictInsert o kv.1 kv.2)
        old)).Nodup := by
  intro delta
  induction delta with
  | nil => exact fun old h => h
  | cons kv rest ih =>
    intro old h
    exact ih _ (nodup_dictKeys_dictInsert old kv.1 kv.2 h)

theorem foldl_dictInsert_mem {α : Type} :
    ∀ (delta old : List (String × α)) (kv : String × α),
      kv ∈ delta.foldl (fun o kv' => dictInsert o kv'.1 kv'.2) old →
      kv ∈ old ∨ kv ∈ delta := by
  intro delta
  induction delta with
  | nil => exact fun old kv h => Or.inl h
  | cons kv0 rest ih =>
    intro old kv h
    simp only [List.foldl_cons] at h
    rcases ih _ kv h with h' | h'
    · rcases mem_dictInsert _ _ _ _ h' with h'' | h''
      · exact Or.inl h''
      · refine Or.inr ?_
        rw [h'']
        exact List.mem_cons_self _ _
    · exact Or.inr (List.mem_cons_of_mem _ h')

/-- The successful checklist merge is a plain left fold of `dictInsert`
over the delta (each key is its own session-stripped form, and is found in
the delta again). -/
theorem mergeChecklistDelta_eq (delta : List (String × String))
    (hnodup : (dictKeys delta).Nodup)
    (hvalid : ∀ kv ∈ delta, ∃ i, scanid.parse kv.1 = some i ∧
      i.session = none) :
    ∀ (suffix old : List (String × String)),
      (∀ kv ∈ suffix, kv ∈ delta) →
      mergeChecklistDelta delta old suffix =
        .ok (suffix.foldl (fun o kv => dictInsert o kv.1 kv.2) old) := by
  intro suffix
  induction suffix with
  | nil =>
    intro old _
    rfl
  | cons kv rest ih =>
    intro old hsub
    obtain ⟨k, v⟩ := kv
    obtain ⟨i, hi, hsess⟩ := hvalid (k, v) (hsub _ (List.mem_cons_self _ _))
    have hfull : scanid.fullSubjectIdWithTimepoint i = k :=
      (parse_key_facts k i hi).2.2 hsess
    have hget : dictGet? delta k = some v :=
      mem_dictGet?_of_nodup delta k v hnodup
        (hsub _ (List.mem_cons_self _ _))
    unfold mergeChecklistDelta
    rw [hi]
    simp only [hfull, hget]
    exact ih (dictInsert old k v) (fun kv' h => hsub kv'
      (List.mem_cons_of_mem _ h))

/-- The successful blacklist merge inserts the entries with a nonempty
reason and skips the rest: it is a fold of `dictInsert` over the filtered
delta. -/
theorem mergeBlacklistDelta_eq :
    ∀ (delta old : List (String × String)),
      (∀ kv ∈ delta, (scanid.parse_filename kv.1).isSome = true) →
      mergeBlacklistDelta old delta =
        .ok ((delta.filter (fun kv => kv.2 ≠ "")).foldl
          (fun o kv => dictInsert o kv.1 kv.2) old) := by
  intro delta
  induction delta with
  | nil =>
    intro old _
    rfl
  | cons kv rest ih =>
    intro old hvalid
    obtain ⟨k, v⟩ := kv
    have hk := hvalid (k, v) (List.mem_cons_self _ _)
    obtain ⟨x, hx⟩ := Option.isSome_iff_exists.mp hk
    unfold mergeBlacklistDelta
    rw [hx]
    by_cases hv : v = ""
    · rw [if_pos hv]
      rw [ih old (fun kv' h => hvalid kv' (List.mem_cons_of_mem _ h))]
      have : List.filter (fun kv => kv.2 ≠ "") ((k, v) :: rest) =
          List.filter (fun kv => kv.2 ≠ "") rest := by
        simp [List.filter, hv]
      rw [this]
    · rw [if_neg hv]
      rw [ih (dictInsert old k v)
        (fun kv' h => hvalid kv' (List.mem_cons_of_mem _ h))]
      have : List.filter (fun kv => kv.2 ≠ "") ((k, v) :: rest) =
          (k, v) :: List.filter (fun kv => kv.2 ≠ "") rest := by
        simp [List.filter, hv]
      rw [this]
      rfl

/-- Looking a key up in a value-filtered dictionary. -/
theorem dictGet?_filter_val {α : Type} (p : α → Bool) :
    ∀ (d : List (String × α)) (k : String), (dictKeys d).Nodup →
      dictGet? (d.filter (fun kv => p kv.2)) k =
        (dictGet? d k).bind (fun v => if p v then some v else none) := by
  intro d
  induction d with
  | nil =>
    intro k _
    simp [dictGet?]
  | cons kv rest ih =>
    intro k hnodup
    obtain ⟨k0, v0⟩ := kv
    simp only [dictKeys, List.map_cons, List.nodup_cons] at hnodup
    obtain ⟨hk0, hnodup'⟩ := hnodup
    by_cases hp : p v0
    · have : List.filter (fun kv => p kv.2) ((k0, v0) :: rest) =
          (k0, v0) :: List.filter (fun kv => p kv.2) rest := by
        simp [List.filter, hp]
      rw [this]
      by_cases hk : k0 = k
      · subst hk
        simp [dictGet?, hp]
      · simp only [dictGet?, if_neg hk]
        exact ih k hnodup'
    · have : List.filter (fun kv => p kv.2) ((k0, v0) :: rest) =
          List.filter (fun kv => p kv.2) rest := by
        simp [List.filter, hp]
      rw [this]
      by_cases hk : k0 = k
      · subst hk
        have hrest : dictGet? rest k0 = none :=
          (dictGet?_eq_none_iff rest k0).mpr
            (by simpa [dictKeys] using hk0)
        have hfil : dictGet? (List.filter (fun kv => p kv.2) rest) k0 =
            none := by
          rw [ih k0 hnodup', hrest]
          rfl
        rw [hfil]
        simp [dictGet?, hp]
      · simp only [dictGet?, if_neg hk]
        exact ih k hnodup'

/-! ## Looking up a key in a freshly rewritten metadata file -/

/-- Reading back the sorted rendering of a checklist dictionary with
distinct, `qc_`-clean, parseable keys: every lookup returns the normalised
stored comment. -/
theorem read_checklist_sorted_get (M : List (String × String))
    (hp : ∀ kv ∈ M, ∃ i, scanid.parse kv.1 = some i)
    (hq : ∀ kv ∈ M, hasInfix ("qc_".data) ((kv.1 ++ ".html").data) = false)
    (hn : (dictKeys M).Nodup) (k : String) :
    dictGet? (read_checklist (sortLines
      (M.map (fun kv => checklistLine kv.1 kv.2)))) k =
      (dictGet? M k).map clNormal := by
  have hperm := sortBy_perm
    (fun a b => strLe (checklistLine a.1 a.2) (checklistLine b.1 b.2)) M
  have hsn : (dictKeys (sortBy
      (fun a b => strLe (checklistLine a.1 a.2) (checklistLine b.1 b.2))
      M)).Nodup :=
    ((hperm.map Prod.fst).nodup_iff).mpr hn
  have hsp : ∀ kv ∈ sortBy
      (fun a b => strLe (checklistLine a.1 a.2) (checklistLine b.1 b.2)) M,
      ∃ i, scanid.parse kv.1 = some i :=
    fun kv h => hp kv (hperm.mem_iff.mp h)
  have hsq : ∀ kv ∈ sortBy
      (fun a b => strLe (checklistLine a.1 a.2) (checklistLine b.1 b.2)) M,
      hasInfix ("qc_".data) ((kv.1 ++ ".html").data) = false :=
    fun kv h => hq kv (hperm.mem_iff.mp h)
  unfold read_checklist _parse_checklist
  rw [sortLines_map (fun kv => checklistLine kv.1 kv.2) M]
  rw [clFold_render
    (sortBy (fun a b => strLe (checklistLine a.1 a.2)
      (checklistLine b.1 b.2)) M) [] hsp hsq
    (by simpa [dictKeys] using hsn)]
  rw [List.nil_append]
  rw [dictGet?_mapValues _ clNormal k]
  rw [dictGet?_perm _ _ hperm hsn k]

/-- Reading back the header plus the sorted rendering of a blacklist
dictionary with distinct, well-formed scan-name keys: every lookup returns
the normalised stored reason. -/
theorem read_blacklist_sorted_get (M : List (String × String))
    (hw : ∀ kv ∈ M, (scanid.parse_filename kv.1).isSome = true)
    (hn : (dictKeys M).Nodup) (k : String) :
    dictGet? (read_blacklist ("series\treason\n" :: sortLines
      (M.map (fun kv => blacklistLine kv.1 kv.2)))) k =
      (dictGet? M k).map blNormal := by
  have hperm := sortBy_perm
    (fun a b => strLe (blacklistLine a.1 a.2) (blacklistLine b.1 b.2)) M
  have hsn : (dictKeys (sortBy
      (fun a b => strLe (blacklistLine a.1 a.2) (blacklistLine b.1 b.2))
      M)).Nodup :=
    ((hperm.map Prod.fst).nodup_iff).mpr hn
  have hsw : ∀ kv ∈ sortBy
      (fun a b => strLe (blacklistLine a.1 a.2) (blacklistLine b.1 b.2)) M,
      (scanid.parse_filename kv.1).isSome = true :=
    fun kv h => hw kv (hperm.mem_iff.mp h)
  unfold read_blacklist _parse_blacklist
  rw [sortLines_map (fun kv => blacklistLine kv.1 kv.2) M]
  rw [List.foldl_cons, blStep_header]
  rw [blFold_render
    (sortBy (fun a b => strLe (blacklistLine a.1 a.2)
      (blacklistLine b.1 b.2)) M) [] hsw
    (by simpa [dictKeys] using hsn)]
  rw [List.nil_append]
  rw [dictGet?_mapValues _ blNormal k]
  rw [dictGet?_perm _ _ hperm hsn k]

/-! ## C2: the checklist write/read round trip -/

/-- C2 (amended): for a delta with distinct keys that are valid session-less
subject IDs, none of which contains `qc_` once suffixed with `.html`, and
whose comments are fixed under the parser's whitespace normalisation — and a
prior file whose parsed keys are likewise `qc_`-clean — `update_checklist`
succeeds and reading the rewritten file back gives exactly the merge of the
prior entries with the delta, the delta winning on key collision.  The
`qc_`/normalisation hypotheses are the correction: without them the round
trip loses or alters entries (see the counterexample). -/
theorem C2_checklist_update_read_is_merge (file : List String)
    (delta : List (String × String))
    (hnodup : (dictKeys delta).Nodup)
    (hvalid : ∀ kv ∈ delta, ∃ i, scanid.parse kv.1 = some i ∧
      i.session = none)
    (hqc : ∀ kv ∈ delta,
      hasInfix ("qc_".data) ((kv.1 ++ ".html").data) = false)
    (hqcold : ∀ kv ∈ read_checklist file,
      hasInfix ("qc_".data) ((kv.1 ++ ".html").data) = false)
    (hnorm : ∀ kv ∈ delta, clNormal kv.2 = kv.2) :
    ∃ newfile, update_checklist file delta = Except.ok newfile ∧
      ∀ k, dictGet? (read_checklist newfile) k =
        (dictGet? delta k).or (dictGet? (read_checklist file) k) := by
  obtain ⟨holdnodup, holdwf⟩ : (dictKeys (_parse_checklist file)).Nodup ∧
      ∀ kv ∈ _parse_checklist file,
        (∃ i, scanid.parse kv.1 = some i) ∧ clNormal kv.2 = kv.2 :=
    parse_checklist_inv file [] (by simp [dictKeys])
      (by intro kv h; simp at h)
  have hmerge := mergeChecklistDelta_eq delta hnodup hvalid delta
    (_parse_checklist file) (fun kv h => h)
  have hupdate : update_checklist file delta =
      Except.ok (sortLines
        ((delta.foldl (fun o kv => dictInsert o kv.1 kv.2)
          (_parse_checklist file)).map
            (fun kv => checklistLine kv.1 kv.2))) := by
    unfold update_checklist
    dsimp only
    rw [hmerge]
  refine ⟨_, hupdate, ?_⟩
  intro k
  have hmnodup : (dictKeys (delta.foldl (fun o kv => dictInsert o kv.1 kv.2)
      (_parse_checklist file))).Nodup :=
    foldl_dictInsert_nodup delta (_parse_checklist file) holdnodup
  have hmmem : ∀ kv ∈ delta.foldl (fun o kv => dictInsert o kv.1 kv.2)
      (_parse_checklist file), kv ∈ _parse_checklist file ∨ kv ∈ delta :=
    fun kv h => foldl_dictInsert_mem delta (_parse_checklist file) kv h
  have hmparse : ∀ kv ∈ delta.foldl (fun o kv => dictInsert o kv.1 kv.2)
      (_parse_checklist file), ∃ i, scanid.parse kv.1 = some i := by
    intro kv h
    rcases hmmem kv h with h' | h'
    · exact (holdwf kv h').1
    · obtain ⟨i, hi, _⟩ := hvalid kv h'
      exact ⟨i, hi⟩
  have hmqc : ∀ kv ∈ delta.foldl (fun o kv => dictInsert o kv.1 kv.2)
      (_parse_checklist file),
      hasInfix ("qc_".data) ((kv.1 ++ ".html").data) = false := by
    intro kv h
    rcases hmmem kv h with h' | h'
    · exact hqcold kv h'
    · exact hqc kv h'
  rw [read_checklist_sorted_get _ hmparse hmqc hmnodup k]
  rw [foldl_dictInsert_get delta (_parse_checklist file) k hnodup]
  cases hd : dictGet? delta k with
  | some v =>
    have hv : clNormal v = v := hnorm (k, v) (dictGet?_some_mem delta k v hd)
    simp [Option.or, hv]
  | none =>
    cases ho : dictGet? (_parse_checklist file) k with
    | some w =>
      have hw : clNormal w = w :=
        (holdwf (k, w) (dictGet?_some_mem _ k w ho)).2
      simp only [Option.or]
      rw [show dictGet? (read_checklist file) k =
        dictGet? (_parse_checklist file) k from rfl, ho]
      simp [hw]
    | none =>
      simp only [Option.or]
      rw [show dictGet? (read_checklist file) k =
        dictGet? (_parse_checklist file) k from rfl, ho]
      rfl

/-- C2 witness: on an empty file and the delta
`{STU_ABC_0001_01 ↦ ok}` the round trip returns the merged comment. -/
theorem C2_checklist_update_read_is_merge_witness :
    dictGet? (read_checklist (match update_checklist []
      [("STU_ABC_0001_01", "ok")] with
      | Except.ok nf => nf
      | Except.error _ => [])) "STU_ABC_0001_01" = some "ok" := by
  obtain ⟨nf, hok, hread⟩ := C2_checklist_update_read_is_merge []
    [("STU_ABC_0001_01", "ok")]
    (by decide)
    (by
      intro kv h
      simp only [List.mem_singleton] at h
      subst h
      exact ⟨⟨"STU", "ABC", "0001", "01", none⟩, rfl, rfl⟩)
    (by decide)
    (by
      intro kv h
      have hfile : read_checklist ([] : List String) = [] := rfl
      rw [hfile] at h
      exact absurd h (List.not_mem_nil kv))
    (by
      intro kv h
      simp only [List.mem_singleton] at h
      subst h
      rfl)
  rw [hok]
  show dictGet? (read_checklist nf) "STU_ABC_0001_01" = some "ok"
  rw [hread "STU_ABC_0001_01"]
  rfl

/-- C2 counterexample to the claim as stated: `STUqc_ABC_0001_01` is a
valid session-less subject ID, yet after writing `{it ↦ ok}` to an empty
checklist the written line reads back as *no* entries — `str.replace`
strips every occurrence of `qc_`, mangling the key — so the round trip is
not the merge of the prior entries with the delta. -/
theorem C2_counterexample_embedded_qc_key_lost :
    scanid.parse "STUqc_ABC_0001_01" =
      some ⟨"STUqc", "ABC", "0001", "01", none⟩ ∧
    update_checklist [] [("STUqc_ABC_0001_01", "ok")] =
      Except.ok ["qc_STUqc_ABC_0001_01.html ok\n"] ∧
    read_checklist ["qc_STUqc_ABC_0001_01.html ok\n"] = [] := by
  refine ⟨rfl, rfl, rfl⟩

/-! ## C8: empty blacklist reasons are skipped, the rest are merged -/

/-- C8: for a delta with distinct, well-formed scan-name keys,
`update_blacklist` succeeds, and in the persisted file an entry whose
reason is empty has left its key untouched (same lookup as in the prior
file — in particular the key is absent if it was not present before),
while an entry with a nonempty reason is stored and reads back as its
normalised reason. -/
theorem C8_blacklist_empty_reason_skipped (file : List String)
    (delta : List (String × String))
    (hnodup : (dictKeys delta).Nodup)
    (hvalid : ∀ kv ∈ delta, (scanid.parse_filename kv.1).isSome = true) :
    ∃ newfile, update_blacklist file delta = Except.ok newfile ∧
      ∀ k v, (k, v) ∈ delta →
        (v = "" → dictGet? (read_blacklist newfile) k =
            dictGet? (read_blacklist file) k) ∧
        (v ≠ "" → dictGet? (read_blacklist newfile) k =
            some (blNormal v)) ∧
        (v = "" → dictGet? (read_blacklist file) k = none →
            dictGet? (read_blacklist newfile) k = none) := by
  obtain ⟨holdnodup, holdwf⟩ : (dictKeys (_parse_blacklist file)).Nodup ∧
      ∀ kv ∈ _parse_blacklist file,
        (scanid.parse_filename kv.1).isSome = true ∧
          blNormal kv.2 = kv.2 :=
    parse_blacklist_inv file [] (by simp [dictKeys])
      (by intro kv h; simp at h)
  have hmerge := mergeBlacklistDelta_eq delta (_parse_blacklist file) hvalid
  have hupdate : update_blacklist file delta =
      Except.ok ("series\treason\n" :: sortLines
        (((delta.filter (fun kv => kv.2 ≠ "")).foldl
          (fun o kv => dictInsert o kv.1 kv.2)
          (_parse_blacklist file)).map
            (fun kv => blacklistLine kv.1 kv.2))) := by
    unfold update_blacklist
    dsimp only
    rw [hmerge]
  refine ⟨_, hupdate, ?_⟩
  intro k v hkv
  have hfilnodup : (dictKeys (delta.filter (fun kv => kv.2 ≠ ""))).Nodup :=
    hnodup.sublist ((List.filter_sublist delta).map Prod.fst)
  have hmnodup : (dictKeys ((delta.filter (fun kv => kv.2 ≠ "")).foldl
      (fun o kv => dictInsert o kv.1 kv.2) (_parse_blacklist file))).Nodup :=
    foldl_dictInsert_nodup _ _ holdnodup
  have hmwf : ∀ kv ∈ (delta.filter (fun kv => kv.2 ≠ "")).foldl
      (fun o kv => dictInsert o kv.1 kv.2) (_parse_blacklist file),
      (scanid.parse_filename kv.1).isSome = true := by
    intro kv h
    rcases foldl_dictInsert_mem _ _ kv h with h' | h'
    · exact (holdwf kv h').1
    · exact hvalid kv (List.mem_of_mem_filter h')
  have hlook : ∀ k', dictGet? (read_blacklist ("series\treason\n" ::
      sortLines (((delta.filter (fun kv => kv.2 ≠ "")).foldl
        (fun o kv => dictInsert o kv.1 kv.2)
        (_parse_blacklist file)).map
          (fun kv => blacklistLine kv.1 kv.2)))) k' =
      ((dictGet? (delta.filter (fun kv => kv.2 ≠ "")) k').or
        (dictGet? (_parse_blacklist file) k')).map blNormal := by
    intro k'
    rw [read_blacklist_sorted_get _ hmwf hmnodup k']
    rw [foldl_dictInsert_get _ (_parse_blacklist file) k' hfilnodup]
  have hdelta : dictGet? delta k = some v :=
    mem_dictGet?_of_nodup delta k v hnodup hkv
  have hfil : dictGet? (delta.filter (fun kv => kv.2 ≠ "")) k =
      if v ≠ "" then some v else none := by
    rw [dictGet?_filter_val (fun x => x ≠ "") delta k hnodup, hdelta]
    by_cases hv : v = "" <;> simp [hv]
  have holdnorm : (dictGet? (_parse_blacklist file) k).map blNormal =
      dictGet? (_parse_blacklist file) k := by
    cases ho : dictGet? (_parse_blacklist file) k with
    | none => rfl
    | some w =>
      have hw : blNormal w = w :=
        (holdwf (k, w) (dictGet?_some_mem _ k w ho)).2
      simp [hw]
  have hempty : v = "" →
      dictGet? (read_blacklist ("series\treason\n" :: sortLines
        (((delta.filter (fun kv => kv.2 ≠ "")).foldl
          (fun o kv => dictInsert o kv.1 kv.2)
          (_parse_blacklist file)).map
            (fun kv => blacklistLine kv.1 kv.2)))) k =
        dictGet? (read_blacklist file) k := by
    intro hv
    rw [hlook k, hfil, if_neg (by simp [hv])]
    have hor : ((none : Option String).or
        (dictGet? (_parse_blacklist file) k)) =
        dictGet? (_parse_blacklist file) k := rfl
    rw [hor, holdnorm]
    rfl
  refine ⟨hempty, ?_, ?_⟩
  · intro hv
    rw [hlook k, hfil, if_pos hv]
    rfl
  · intro hv hnone
    rw [hempty hv]
    exact hnone

/-- C8 witness: on an empty file, updating with an empty-reason scan and a
nonempty-reason scan persists only the latter. -/
theorem C8_blacklist_empty_reason_skipped_witness :
    dictGet? (read_blacklist (match update_blacklist []
      [("STU_ABC_0001_01_01_T1_03_DESC", ""),
       ("STU_ABC_0001_01_01_T1_04_DESC", "bad")] with
      | Except.ok nf => nf
      | Except.error _ => [])) "STU_ABC_0001_01_01_T1_03_DESC" = none ∧
    dictGet? (read_blacklist (match update_blacklist []
      [("STU_ABC_0001_01_01_T1_03_DESC", ""),
       ("STU_ABC_0001_01_01_T1_04_DESC", "bad")] with
      | Except.ok nf => nf
      | Except.error _ => [])) "STU_ABC_0001_01_01_T1_04_DESC" =
        some "bad" := by
  obtain ⟨nf, hok, hread⟩ := C8_blacklist_empty_reason_skipped []
    [("STU_ABC_0001_01_01_T1_03_DESC", ""),
     ("STU_ABC_0001_01_01_T1_04_DESC", "bad")]
    (by decide)
    (by
      intro kv h
      simp only [List.mem_cons, List.not_mem_nil, or_false] at h
      rcases h with rfl | rfl <;> rfl)
  constructor
  · rw [hok]
    show dictGet? (read_blacklist nf) "STU_ABC_0001_01_01_T1_03_DESC" = none
    obtain ⟨h1, h2, h3⟩ := hread "STU_ABC_0001_01_01_T1_03_DESC" ""
      (List.mem_cons_self _ _)
    exact h3 rfl rfl
  · rw [hok]
    show dictGet? (read_blacklist nf) "STU_ABC_0001_01_01_T1_04_DESC" =
      some "bad"
    obtain ⟨h1, h2, h3⟩ := hread "STU_ABC_0001_01_01_T1_04_DESC" "bad"
      (List.mem_cons_of_mem _ (List.mem_cons_self _ _))
    rw [h2 (by decide)]
    rfl

end Datman
